import Mathlib

/-!
Verification development for the konkan-house drawing generator.

The Python sources `svg_2d.py` and `konkan_house_lib.py` are shallowly
embedded below: floating-point numbers become `ℚ`, Python dicts with a
fixed field set become structures, `dict.get` with a default becomes an
`Option`/plain field as noted at each definition, and SVG strings are
abstracted to the structured data they render (coordinates, dimension
records, shapes).  Each definition notes the source function and lines
it embeds.
-/

namespace KonkanHouse

/-! ## Python list sorting

Python's `sorted`/`list.sort` is a stable comparison sort.  We model it
by a stable insertion sort parameterised by a boolean `le` comparison:
an element is inserted after every already-placed element whose key is
`le` it, which preserves the original relative order of equal keys
exactly as Python's Timsort does. -/

/-- Insert `x` into `l`, passing over elements `y` with `le y x` so that
`x` lands after every earlier element whose key is less-or-equal. -/
def stableInsert (le : α → α → Bool) (x : α) : List α → List α
  | [] => [x]
  | y :: ys => if le x y then x :: y :: ys else y :: stableInsert le x ys

/-- Stable sort by the comparison `le` (model of Python `sorted`). -/
def stableSort (le : α → α → Bool) : List α → List α
  | [] => []
  | x :: xs => stableInsert le x (stableSort le xs)

/-- Number of distinct values occurring in a list of levels. -/
def distinctCount (l : List ℕ) : ℕ := l.dedup.length

/-! ## Python numeric primitives -/

/-- Python `round(q)`: round a rational to the nearest integer, ties to
the even integer (banker's rounding, as Python does on floats). -/
def pyRound (q : ℚ) : ℤ :=
  if q - ⌊q⌋ < 1/2 then ⌊q⌋
  else if 1/2 < q - ⌊q⌋ then ⌊q⌋ + 1
  else if ⌊q⌋ % 2 = 0 then ⌊q⌋ else ⌊q⌋ + 1

/-- Python `round(q, 2)`: round to two decimal places, ties to even. -/
def round2 (q : ℚ) : ℚ := (pyRound (q * 100) : ℚ) / 100

/-- Python `int(q)`: truncation toward zero. -/
def intTrunc (q : ℚ) : ℤ := if 0 ≤ q then ⌊q⌋ else -⌊-q⌋

/-- Python lexicographic `<=` on coordinate pairs, as used by
`(x1, y1) <= (x2, y2)` in `normalize_edge_key`. -/
def tupleLe (a b : ℚ × ℚ) : Bool :=
  decide (a.1 < b.1 ∨ (a.1 = b.1 ∧ a.2 ≤ b.2))

/-! ## svg_2d.py: normalize_edge_key (lines 303-318) -/

/-- Embedding of `normalize_edge_key(x1, y1, x2, y2)`: order the two
endpoints lexicographically, then round every coordinate to two
decimals. -/
def normalize_edge_key (x1 y1 x2 y2 : ℚ) : ℚ × ℚ × ℚ × ℚ :=
  if tupleLe (x1, y1) (x2, y2) then
    (round2 x1, round2 y1, round2 x2, round2 y2)
  else
    (round2 x2, round2 y2, round2 x1, round2 y1)

/-! ## svg_2d.py: assign_dimension_offset_levels (lines 417-482)

An edge dict carries the four coordinates used by the function.  The
Python function returns a dict keyed by `normalize_edge_key`; we return
the per-edge assignment list produced in processing order (the dict is
that list re-keyed, last write winning on duplicate keys), which is the
assignment the claims speak about. -/

/-- Edge record (the `x1`/`y1`/`x2`/`y2` fields of an edge dict). -/
structure Edge where
  x1 : ℚ
  y1 : ℚ
  x2 : ℚ
  y2 : ℚ
deriving DecidableEq, Repr

/-- Coordinate pair used for this axis: `(x1, x2)` when horizontal,
`(y1, y2)` when vertical, exactly the Python sort key. -/
def edgeProj (ih : Bool) (e : Edge) : ℚ × ℚ :=
  if ih then (e.x1, e.x2) else (e.y1, e.y2)

/-- Sort comparison on edges: lexicographic on the projected pair,
matching `sorted(edges, key=lambda e: (e['x1'], e['x2']))` (resp. `y`). -/
def edgeKeyLe (ih : Bool) (a b : Edge) : Bool :=
  tupleLe (edgeProj ih a) (edgeProj ih b)

/-- The span of an edge along the axis: `(min, max)` of the projected
coordinates (`edge_start`/`edge_end` in the source). -/
def erange (ih : Bool) (e : Edge) : ℚ × ℚ :=
  (min (edgeProj ih e).1 (edgeProj ih e).2,
   max (edgeProj ih e).1 (edgeProj ih e).2)

/-- The overlap test with the 5-unit gap tolerance:
`edge_start < range_end + 5 and edge_end > range_start - 5`. -/
def rangesOverlap (a b : ℚ × ℚ) : Bool :=
  decide (a.1 < b.2 + 5) && decide (a.2 > b.1 - 5)

/-- Overlap of two edges along the chosen axis. -/
def edgesOverlap (ih : Bool) (a b : Edge) : Bool :=
  rangesOverlap (erange ih a) (erange ih b)

/-- First-fit placement of a span into the level list: scan the levels
in order, put the span into the first level where it overlaps nothing
(appending it to that level's range list), else open a new level at the
end.  Returns the assigned level index and the updated levels. -/
def insertRange (r : ℚ × ℚ) : List (List (ℚ × ℚ)) → ℕ × List (List (ℚ × ℚ))
  | [] => (0, [[r]])
  | ranges :: rest =>
    if ranges.all (fun q => !(rangesOverlap r q)) then
      (0, (ranges ++ [r]) :: rest)
    else
      let p := insertRange r rest
      (p.1 + 1, ranges :: p.2)

/-- The main loop of `assign_dimension_offset_levels`: process the
(already sorted) edges, assigning each its first-fit level. -/
def assignLoop (ih : Bool) : List Edge → List (List (ℚ × ℚ)) →
    List (Edge × ℕ) × List (List (ℚ × ℚ))
  | [], levels => ([], levels)
  | e :: es, levels =>
    let p := insertRange (erange ih e) levels
    let q := assignLoop ih es p.2
    ((e, p.1) :: q.1, q.2)

/-- Embedding of `assign_dimension_offset_levels(edges, is_horizontal)`:
sort by the projected coordinate pair, then greedily assign first-fit
levels against the gap-tolerance overlap test. -/
def assign_dimension_offset_levels (edges : List Edge) (is_horizontal : Bool) :
    List (Edge × ℕ) :=
  (assignLoop is_horizontal (stableSort (edgeKeyLe is_horizontal) edges) []).1

/-- Number of distinct offset levels the function creates for `edges`. -/
def offsetLevelCount (edges : List Edge) (ih : Bool) : ℕ :=
  distinctCount ((assign_dimension_offset_levels edges ih).map Prod.snd)

/-- A level assignment for a collection of edges is valid when no two
edges that overlap (under the gap-tolerance test) share a level. -/
def ValidAssignment (ih : Bool) (pairs : List (Edge × ℕ)) : Prop :=
  pairs.Pairwise fun p q => edgesOverlap ih p.1 q.1 = true → p.2 ≠ q.2

/-- Ghost variant of `insertRange` that stores the originating edge in
each level instead of its span; used only inside proofs.  The overlap
test is applied to `erange` of the stored edges, so erasing the edges
to their spans recovers `insertRange` exactly
(`insertRangeG_erase` below). -/
def insertRangeG (ih : Bool) (e : Edge) : List (List Edge) → ℕ × List (List Edge)
  | [] => (0, [[e]])
  | ranges :: rest =>
    if ranges.all (fun q => !(rangesOverlap (erange ih e) (erange ih q))) then
      (0, (ranges ++ [e]) :: rest)
    else
      let p := insertRangeG ih e rest
      (p.1 + 1, ranges :: p.2)

/-- Ghost variant of `assignLoop` over edge-valued levels. -/
def assignLoopG (ih : Bool) : List Edge → List (List Edge) →
    List (Edge × ℕ) × List (List Edge)
  | [], levels => ([], levels)
  | e :: es, levels =>
    let p := insertRangeG ih e levels
    let q := assignLoopG ih es p.2
    ((e, p.1) :: q.1, q.2)

/-! ## svg_2d.py: elevation depth sorting (lines 1540-2160)

Two different depth computations appear in `generate_elevation_view`:
a preliminary one used to order the per-floor object collection
(lines 1562-1617), and the depth stored on each draw entry of
`objects_to_draw` (slabs: lines 1682-1691, walls: lines 1938-1966),
which is what the final painter's sorts at lines 2023 and 2142 use. -/

/-- Elevation view selector. -/
inductive ViewType
  | front
  | back
  | left
  | right
deriving DecidableEq, Repr

/-- Object kinds that take part in elevation depth sorting. -/
inductive ElevKind
  | floor_slab
  | beam
  | staircase
  | room
  | wall
  | pillar
deriving DecidableEq, Repr

/-- Fields of a floor object read by the elevation depth code.  Objects
in the configs carry all the fields relevant to their kind; the `.get`
defaults in the source only cover absent fields, so plain fields model
the well-formed configurations. -/
structure ElevObj where
  kind : ElevKind
  x : ℚ
  y : ℚ
  width : ℚ
  length : ℚ
  start_x : ℚ
  start_y : ℚ
  end_x : ℚ
  end_y : ℚ
deriving DecidableEq, Repr

/-- Preliminary depth (svg_2d.py lines 1569-1609): the scalar put into
`floor_objects_with_depth` before the collection pass. -/
def prelimDepth (view : ViewType) (o : ElevObj) : ℚ :=
  match view with
  | .front =>
    match o.kind with
    | .wall => min o.start_y o.end_y
    | _ => o.y
  | .back =>
    match o.kind with
    | .wall => -(max o.start_y o.end_y)
    | _ => -o.y
  | .left =>
    match o.kind with
    | .wall => min o.start_x o.end_x
    | _ => o.x
  | .right =>
    match o.kind with
    | .wall => -(max o.start_x o.end_x)
    | _ => -o.x

/-- Depth stored on a floor slab's draw entry (svg_2d.py lines
1672-1691): `-slab_x` / `slab_x + slab_width` / `-slab_y` /
`slab_y + slab_length` for left/right/front/back. -/
def slabDrawDepth (view : ViewType) (o : ElevObj) : ℚ :=
  match view with
  | .left => -o.x
  | .right => o.x + o.width
  | .front => -o.y
  | .back => o.y + o.length

/-- Depth stored on a wall's draw entry (svg_2d.py lines 1943 and 1963):
`-start_y`/`start_y` for front/back (horizontal walls) and
`-start_x`/`start_x` for left/right (vertical walls). -/
def wallDrawDepth (view : ViewType) (o : ElevObj) : ℚ :=
  match view with
  | .front => -o.start_y
  | .back => o.start_y
  | .left => -o.start_x
  | .right => o.start_x

/-! ## svg_2d.py: draw-entry sorting (lines 2023 and 2142) -/

/-- Fields of an `objects_to_draw` entry used by the painter's sort and
the draw loop. -/
structure DrawObj where
  depth : ℚ
  priority : ℤ
  x : ℚ
  width : ℚ
  height : ℚ
  z : ℚ
deriving DecidableEq, Repr

/-- Sort key of the painter's sorts:
`key=lambda w: (w['depth'], w.get('priority', 2))`. -/
def drawKey (w : DrawObj) : ℚ × ℤ := (w.depth, w.priority)

/-- Lexicographic comparison of the painter's sort keys. -/
def drawLe (a b : DrawObj) : Bool :=
  decide (a.depth < b.depth ∨ (a.depth = b.depth ∧ a.priority ≤ b.priority))

/-- One painter's sort (`objects_to_draw.sort(...)`, a stable sort by
`(depth, priority)`). -/
def sortObjectsToDraw : List DrawObj → List DrawObj :=
  stableSort drawLe

/-- The full two-stage ordering pipeline: each floor's collection is
sorted (line 2023), the floors are concatenated into
`all_objects_to_draw`, and the result is sorted again (line 2142). -/
def elevationDrawOrder (floors : List (List DrawObj)) : List DrawObj :=
  sortObjectsToDraw (List.flatten (floors.map sortObjectsToDraw))

/-! ## svg_2d.py: elevation X mirroring and wall shapes
(lines 1471-1493 and 2210-2242) -/

/-- Embedding of the nested helper `world_to_svg_x(coord, obj_width)`:
front and right views mirror the in-plane coordinate across the span
`width`; back and left leave it unchanged. -/
def world_to_svg_x (view : ViewType) (width coord obj_width : ℚ) : ℚ :=
  match view with
  | .front => width - (coord + obj_width)
  | .right => width - (coord + obj_width)
  | _ => coord

/-- Fields of a wall draw entry read when the wall is rendered.  The
collection code (lines 1945-1958) always stores a `height_end` key
(defaulting it to `height`), so the draw-time check
`'height_end' in obj` is always true for these entries and
`is_sloping` reduces to `height != height_end`. -/
structure WallDrawEntry where
  x : ℚ
  width : ℚ
  height : ℚ
  height_end : ℚ
  z : ℚ
deriving DecidableEq, Repr

/-- Shape a wall is rendered as in an elevation view: either a sloped
polygon with the SVG y of its two top corners, or a flat rectangle. -/
inductive WallShape
  | sloped (xLeft xRight topLeftY topRightY : ℚ)
  | flat (x yTop w h : ℚ)
deriving DecidableEq, Repr

/-- Embedding of the wall branch of the elevation draw loop (svg_2d.py
lines 2210-2242), with `z_to_y z = totalH - z` (line 1468): a sloping
wall becomes a polygon whose left/right top heights are swapped in the
mirrored front/right views; otherwise a rectangle is drawn. -/
def drawWallShape (view : ViewType) (totalH width : ℚ) (e : WallDrawEntry) :
    WallShape :=
  let objX := world_to_svg_x view width e.x e.width
  if e.height ≠ e.height_end then
    let hLeft := if view = .front ∨ view = .right then e.height_end else e.height
    let hRight := if view = .front ∨ view = .right then e.height else e.height_end
    .sloped objX (objX + e.width) (totalH - (e.z + hLeft)) (totalH - (e.z + hRight))
  else
    .flat objX (totalH - (e.z + e.height)) e.width
      ((totalH - e.z) - (totalH - (e.z + e.height)))

/-! ## svg_2d.py: format_dimension (lines 260-300)

The returned SVG text is abstracted to the constructor and numbers the
string interpolates; `FormattedDim.feetInches f i` stands for the text
`f' i"`, `decimalUnits v p u` for `v` printed with `p` decimals plus
the unit suffix. -/

/-- Dimension-formatting configuration (the `dimensions` sub-dict). -/
structure DimConfig where
  unit_conversion : ℚ
  precision : ℕ
  unit_display : String
  use_feet_inches : Bool

/-- Structured result of `format_dimension`. -/
inductive FormattedDim
  | feetInches (feet inches : ℤ)
  | feetOnly (feet : ℤ)
  | inchesOnly (inches : ℤ)
  | decimalUnits (value : ℚ) (precision : ℕ) (unit : String)
deriving DecidableEq, Repr

/-- Embedding of `format_dimension(length)`: divide by the unit
conversion; in feet-inches mode truncate to whole feet and round the
remainder times 12 to whole inches, with no carry from inches into
feet. -/
def format_dimension (cfg : DimConfig) (length : ℚ) : FormattedDim :=
  let converted := length / cfg.unit_conversion
  if cfg.unit_display = "feet" ∧ cfg.use_feet_inches then
    let feet := intTrunc converted
    let inchesRounded := pyRound ((converted - feet) * 12)
    if 0 < feet ∧ 0 < inchesRounded then .feetInches feet inchesRounded
    else if 0 < feet then .feetOnly feet
    else .inchesOnly inchesRounded
  else
    .decimalUnits converted cfg.precision cfg.unit_display

/-! ## konkan_house_lib.py: create_room (lines 498-577) -/

/-- Compass direction of a room wall. -/
inductive WallDir
  | north
  | south
  | east
  | west
deriving DecidableEq, Repr

/-- Centerline segment of a created wall (the `start`/`end` points
passed to `create_wall`). -/
structure WallSeg where
  x1 : ℚ
  y1 : ℚ
  x2 : ℚ
  y2 : ℚ
deriving DecidableEq, Repr

/-- Embedding of `create_room`: synthesize the centerline segments of
the requested perimeter walls, in the source's north, south, east,
west order.  North/south centerlines run the full outer width at
`y + t/2` / `y + length - t/2`; east/west run only the inner span
`y + t .. y + length - t` at `x + width - t/2` / `x + t/2`. -/
def create_room (x y width length t : ℚ) (walls : List WallDir) : List WallSeg :=
  (if walls.contains .north then
    [⟨x, y + t/2, x + width, y + t/2⟩] else []) ++
  (if walls.contains .south then
    [⟨x, y + length - t/2, x + width, y + length - t/2⟩] else []) ++
  (if walls.contains .east then
    [⟨x + width - t/2, y + t, x + width - t/2, y + length - t⟩] else []) ++
  (if walls.contains .west then
    [⟨x + t/2, y + t, x + t/2, y + length - t⟩] else [])

/-! ## konkan_house_lib.py: get_floor_z_offset (lines 79-107) -/

/-- The parts of `GLOBAL_CONFIG` the Z-offset computation reads.
`floor_heights` is the partial map of per-floor wall heights. -/
structure LibConfig where
  plinth_height : ℚ
  floor_slab_thickness : ℚ
  floor_heights : ℕ → Option ℚ
  units_to_meters_ratio : ℚ
  scale_factor : ℚ

/-- Wall height used for floor `k`: the configured height if present,
else the ground-floor height, else `10.0`
(`GLOBAL_CONFIG['floor_heights'].get(0, 10.0)`). -/
def wallHeightOf (cfg : LibConfig) (k : ℕ) : ℚ :=
  match cfg.floor_heights k with
  | some h => h
  | none => (cfg.floor_heights 0).getD 10

/-- The accumulation loop of `get_floor_z_offset` before unit
conversion: start from the plinth height and add slab thickness plus
wall height for every floor below `n`. -/
def get_floor_z_offset_units (cfg : LibConfig) (n : ℕ) : ℚ :=
  (List.range n).foldl
    (fun z k => z + cfg.floor_slab_thickness + wallHeightOf cfg k)
    cfg.plinth_height

/-- Embedding of `to_meters`. -/
def to_meters (cfg : LibConfig) (v : ℚ) : ℚ :=
  v * cfg.units_to_meters_ratio * cfg.scale_factor

/-- Embedding of `get_floor_z_offset(floor_number)`: the unit-space
accumulation converted to meters at the end. -/
def get_floor_z_offset (cfg : LibConfig) (n : ℕ) : ℚ :=
  to_meters cfg (get_floor_z_offset_units cfg n)

/-! ## svg_2d.py: opening dimension chains
(svg_draw_opening_dimensions lines 715-825 and the per-wall loop in
generate_floor_plan_svg lines 1081-1160)

Each emitted SVG dimension is abstracted to a record with its kind,
its numeric value, and whether it is actually drawn (position/"gap"
dimensions under the 5-unit visibility threshold are computed but not
drawn; a suppressed record keeps `emitted = false`). -/

/-- Kind of a dimension in an opening chain. -/
inductive DimKind
  | gap
  | width
  | finalGap
deriving DecidableEq, Repr

/-- One dimension of an opening chain. -/
structure DimRec where
  kind : DimKind
  value : ℚ
  emitted : Bool
deriving DecidableEq, Repr

/-- Per-opening part of the chain: for each opening `(pos, w)` (its
coordinate along the wall and its width), a gap dimension
`|pos - reference_point|` drawn only when it exceeds 5, then the width
dimension, always drawn; the reference point advances to the opening's
end. -/
def chainAux (ref : ℚ) : List (ℚ × ℚ) → List DimRec
  | [] => []
  | (pos, w) :: rest =>
    ⟨.gap, |pos - ref|, decide (5 < |pos - ref|)⟩ ::
    ⟨.width, w, true⟩ ::
    chainAux (pos + w) rest

/-- Chain for one wall: start the reference point at the wall's inner
start, process the sorted openings, then (when any opening exists) add
the final gap to the wall's inner end, drawn only when it exceeds 5. -/
def chainDims (innerStart innerEnd : ℚ) (os : List (ℚ × ℚ)) : List DimRec :=
  match os.getLast? with
  | none => []
  | some (pos, w) =>
    chainAux innerStart os ++
      [⟨.finalGap, innerEnd - (pos + w), decide (5 < innerEnd - (pos + w))⟩]

/-- Chain for a wall given its outer start/end and wall thickness: the
inner span runs from `wallStart + t` to `wallEnd - t`. -/
def openingChainForWall (wallStart wallEnd t : ℚ) (os : List (ℚ × ℚ)) :
    List DimRec :=
  chainDims (wallStart + t) (wallEnd - t) os

/-! ## svg_2d.py: opening resolution in generate_floor_plan_svg
(lines 986-1002 door drawing, 1009-1053 wall bounds and grouping,
1081-1160 the dimension pass) -/

/-- Door/window object fields read by the floor-plan code. -/
structure FPOpening where
  isDoor : Bool
  x : ℚ
  y : ℚ
  width : ℚ
  direction : String
  room : Option String
  wall : Option String
deriving DecidableEq, Repr

/-- Room object fields read when building `wall_bounds`. -/
structure FPRoom where
  name : String
  x : ℚ
  y : ℚ
  width : ℚ
  length : ℚ
deriving DecidableEq, Repr

/-- Standalone wall object fields read when building `wall_bounds`. -/
structure FPWallObj where
  name : String
  start_x : ℚ
  start_y : ℚ
  end_x : ℚ
  end_y : ℚ
deriving DecidableEq, Repr

/-- A floor-plan object relevant to opening dimensioning. -/
inductive FPObj
  | room (r : FPRoom)
  | wall (w : FPWallObj)
  | opening (o : FPOpening)
deriving DecidableEq, Repr

/-- One `wall_bounds` entry; `stop` models the dict's `end` key. -/
structure WallInfo where
  start : ℚ
  stop : ℚ
  coord : ℚ
  direction : String
deriving DecidableEq, Repr

/-- Python dict assignment on an association list: overwrite the value
at an existing key in place, else append the binding. -/
def dictInsert (m : List (String × α)) (key : String) (v : α) :
    List (String × α) :=
  if (m.lookup key).isSome then
    m.map fun p => if p.1 = key then (p.1, v) else p
  else m ++ [(key, v)]

/-- Python `dict.setdefault(key, []).append(o)` on an association list
of lists. -/
def dictAppend (m : List (String × List α)) (key : String) (o : α) :
    List (String × List α) :=
  if (m.lookup key).isSome then
    m.map fun p => if p.1 = key then (p.1, p.2 ++ [o]) else p
  else m ++ [(key, [o])]

/-- Python `str.capitalize()` (upper-case the first character,
lower-case the rest). -/
def pyCapitalize (s : String) : String :=
  match s.data with
  | [] => ""
  | c :: rest => String.mk (c.toUpper :: rest.map Char.toLower)

/-- Build `wall_bounds` (svg_2d.py lines 1009-1034): four directional
entries per room and one classified entry per axis-aligned standalone
wall; `minX`/`maxX`/`minY`/`maxY` are the floor's bounding box used to
classify standalone walls. -/
def wallBounds (minX minY maxX maxY : ℚ) (objs : List FPObj) :
    List (String × WallInfo) :=
  objs.foldl
    (fun m obj =>
      match obj with
      | .room r =>
        let m := dictInsert m (r.name ++ "_North")
          ⟨r.x, r.x + r.width, r.y, "north"⟩
        let m := dictInsert m (r.name ++ "_South")
          ⟨r.x, r.x + r.width, r.y + r.length, "south"⟩
        let m := dictInsert m (r.name ++ "_East")
          ⟨r.y, r.y + r.length, r.x + r.width, "east"⟩
        dictInsert m (r.name ++ "_West")
          ⟨r.y, r.y + r.length, r.x, "west"⟩
      | .wall w =>
        if |w.end_y - w.start_y| < 1/100 then
          dictInsert m w.name
            ⟨min w.start_x w.end_x, max w.start_x w.end_x, w.start_y,
             if w.start_y < (minY + maxY) / 2 then "north" else "south"⟩
        else if |w.end_x - w.start_x| < 1/100 then
          dictInsert m w.name
            ⟨min w.start_y w.end_y, max w.start_y w.end_y, w.start_x,
             if w.start_x < (minX + maxX) / 2 then "west" else "east"⟩
        else m
      | .opening _ => m)
    []

/-- Wall key an opening refers to (svg_2d.py lines 1041-1048): the
explicit `wall` name if given, else `room + capitalized direction`. -/
def resolveWallName (o : FPOpening) : Option String :=
  match o.wall with
  | some w => some w
  | none =>
    match o.room with
    | some r => some (r ++ "_" ++ pyCapitalize (o.direction.toLower))
    | none => none

/-- Group the openings by resolved wall key, keeping only openings
whose key resolves to an existing `wall_bounds` entry
(svg_2d.py lines 1038-1053). -/
def groupOpenings (bounds : List (String × WallInfo)) (objs : List FPObj) :
    List (String × List FPOpening) :=
  objs.foldl
    (fun m obj =>
      match obj with
      | .opening o =>
        match resolveWallName o with
        | some name =>
          if (bounds.lookup name).isSome then dictAppend m name o else m
        | none => m
      | _ => m)
    []

/-- Comparison used to sort a wall's openings by position
(svg_2d.py lines 1057-1064). -/
def openingPosLe (horizontal : Bool) (a b : FPOpening) : Bool :=
  if horizontal then decide (a.x ≤ b.x) else decide (a.y ≤ b.y)

/-- The dimension pass over the grouped openings (svg_2d.py lines
1081-1160): look the wall info up again (an absent key would be a
Python `KeyError`, modelled as `.error`), sort the openings, and build
the chain from the wall's inner span. -/
def dimensionPass (t : ℚ) (bounds : List (String × WallInfo))
    (groups : List (String × List FPOpening)) :
    Except String (List (String × List DimRec)) :=
  groups.foldr
    (fun g acc => do
      let rest ← acc
      match bounds.lookup g.1 with
      | none => .error g.1
      | some info =>
        let horizontal := info.direction = "north" ∨ info.direction = "south"
        let sorted := stableSort (openingPosLe horizontal) g.2
        let pos := sorted.map fun o =>
          (if horizontal then o.x else o.y, o.width)
        .ok ((g.1, chainDims (info.start + t) (info.stop - t) pos) :: rest))
    (.ok [])

/-- Door rectangles the floor plan draws (svg_2d.py lines 986-993):
every door object is drawn at its own coordinates, independently of
whether its wall reference resolves. -/
def drawnDoorRects (objs : List FPObj) : List (ℚ × ℚ × ℚ × String) :=
  objs.filterMap fun obj =>
    match obj with
    | .opening o => if o.isDoor then some (o.x, o.y, o.width, o.direction) else none
    | _ => none

/-! ## Generic facts about the stable sort model -/

theorem stableInsert_perm (le : α → α → Bool) (x : α) (l : List α) :
    (stableInsert le x l).Perm (x :: l) := by
  induction l with
  | nil => exact List.Perm.refl _
  | cons y ys ih =>
    unfold stableInsert
    by_cases h : le x y = true
    · simp [h]
    · simp only [h, if_false, Bool.false_eq_true]
      exact (ih.cons y).trans (List.Perm.swap x y ys)

theorem stableSort_perm (le : α → α → Bool) (l : List α) :
    (stableSort le l).Perm l := by
  induction l with
  | nil => exact List.Perm.refl _
  | cons x xs ih =>
    exact (stableInsert_perm le x (stableSort le xs)).trans (ih.cons x)

theorem mem_stableInsert (le : α → α → Bool) (x a : α) (l : List α) :
    a ∈ stableInsert le x l ↔ a = x ∨ a ∈ l := by
  rw [(stableInsert_perm le x l).mem_iff, List.mem_cons]

theorem stableInsert_pairwise (le : α → α → Bool)
    (htot : ∀ a b, le a b = true ∨ le b a = true)
    (htrans : ∀ a b c, le a b = true → le b c = true → le a c = true)
    (x : α) (l : List α) (h : l.Pairwise fun a b => le a b = true) :
    (stableInsert le x l).Pairwise fun a b => le a b = true := by
  induction l with
  | nil => simp [stableInsert]
  | cons y ys ih =>
    rcases h with _ | ⟨hy, hys⟩
    unfold stableInsert
    by_cases hxy : le x y = true
    · rw [if_pos hxy]
      refine List.Pairwise.cons ?_ (List.Pairwise.cons hy hys)
      intro b hb
      rcases List.mem_cons.mp hb with rfl | hb
      · exact hxy
      · exact htrans x y b hxy (hy b hb)
    · rw [if_neg hxy]
      have hyx : le y x = true := (htot x y).resolve_left hxy
      refine List.Pairwise.cons ?_ (ih hys)
      intro b hb
      rcases (mem_stableInsert le x b ys).mp hb with rfl | hb
      · exact hyx
      · exact hy b hb

theorem stableSort_pairwise (le : α → α → Bool)
    (htot : ∀ a b, le a b = true ∨ le b a = true)
    (htrans : ∀ a b c, le a b = true → le b c = true → le a c = true)
    (l : List α) :
    (stableSort le l).Pairwise fun a b => le a b = true := by
  induction l with
  | nil => simp [stableSort]
  | cons x xs ih => exact stableInsert_pairwise le htot htrans x _ ih

theorem filter_stableInsert {K : Type _} [DecidableEq K] (key : α → K)
    (le : α → α → Bool) (hrefl : ∀ a b, key a = key b → le a b = true)
    (x : α) (l : List α) (k : K) :
    (stableInsert le x l).filter (fun a => decide (key a = k)) =
      if key x = k then x :: l.filter (fun a => decide (key a = k))
      else l.filter (fun a => decide (key a = k)) := by
  induction l with
  | nil =>
    by_cases hk : key x = k <;> simp [stableInsert, hk]
  | cons y ys ih =>
    unfold stableInsert
    by_cases hxy : le x y = true
    · by_cases hk : key x = k <;> simp [hxy, List.filter_cons, hk]
    · have hyk : key y = k → key x = k → False := by
        intro h1 h2
        exact hxy (hrefl x y (h2.trans h1.symm))
      simp only [hxy, if_false, Bool.false_eq_true]
      by_cases hk : key x = k
      · have hy : ¬ (key y = k) := fun h => hyk h hk
        simp [List.filter_cons, hy, ih, hk]
      · by_cases hy : key y = k <;> simp [List.filter_cons, hy, ih, hk]

theorem filter_stableSort {K : Type _} [DecidableEq K] (key : α → K)
    (le : α → α → Bool) (hrefl : ∀ a b, key a = key b → le a b = true)
    (l : List α) (k : K) :
    (stableSort le l).filter (fun a => decide (key a = k)) =
      l.filter (fun a => decide (key a = k)) := by
  induction l with
  | nil => rfl
  | cons x xs ih =>
    unfold stableSort
    rw [filter_stableInsert key le hrefl, ih]
    by_cases hk : key x = k <;> simp [List.filter_cons, hk]

/-! ## C8: normalize_edge_key symmetry -/

/-- C8: for all input coordinates,
`normalize_edge_key (x1, y1, x2, y2) = normalize_edge_key (x2, y2, x1, y1)`:
the normalized edge key is invariant under swapping the two
endpoints. -/
theorem C8_normalize_edge_key_symmetric (x1 y1 x2 y2 : ℚ) :
    normalize_edge_key x1 y1 x2 y2 = normalize_edge_key x2 y2 x1 y1 := by
  by_cases h1 : tupleLe (x1, y1) (x2, y2) = true
  · by_cases h2 : tupleLe (x2, y2) (x1, y1) = true
    · have h1' := of_decide_eq_true h1
      have h2' := of_decide_eq_true h2
      have hx : x1 = x2 := by
        rcases h1' with h | ⟨hx, _⟩
        · rcases h2' with h' | ⟨hx', _⟩
          · exact absurd (h.trans h') (lt_irrefl x1)
          · exact hx'.symm
        · exact hx
      have hy : y1 = y2 := by
        subst hx
        rcases h1' with h | ⟨_, hy1⟩
        · exact absurd h (lt_irrefl x1)
        · rcases h2' with h' | ⟨_, hy2⟩
          · exact absurd h' (lt_irrefl x1)
          · exact le_antisymm hy1 hy2
      subst hx; subst hy; rfl
    · have h2' : tupleLe (x2, y2) (x1, y1) = false :=
        Bool.not_eq_true _ ▸ eq_false_of_ne_true h2
      simp [normalize_edge_key, h1, h2']
  · by_cases h2 : tupleLe (x2, y2) (x1, y1) = true
    · have h1' : tupleLe (x1, y1) (x2, y2) = false :=
        Bool.not_eq_true _ ▸ eq_false_of_ne_true h1
      simp [normalize_edge_key, h1', h2]
    · exfalso
      simp only [tupleLe, decide_eq_true_eq] at h1 h2
      push_neg at h1 h2
      have hx : x1 = x2 := le_antisymm h2.1 h1.1
      have hy1 := h1.2 hx
      have hy2 := h2.2 hx.symm
      linarith

/-! ## C4: create_room wall centerlines -/

/-- C4: for every room the synthesized north/south centerlines span the
full outer width at `y + t/2` / `y + length - t/2` and the east/west
centerlines span only the inner range `y + t .. y + length - t` at
`x + width - t/2` / `x + t/2`; in particular a room at the origin of
size 100 by 100 with wall thickness 8 gets its North centerline at
`y = 4` over `x = 0..100` and its East centerline at `x = 96` over
`y = 8..92`. -/
theorem C4_create_room_centerlines :
    (∀ x y width length t : ℚ,
      create_room x y width length t
        [WallDir.north, WallDir.south, WallDir.east, WallDir.west] =
        [⟨x, y + t/2, x + width, y + t/2⟩,
         ⟨x, y + length - t/2, x + width, y + length - t/2⟩,
         ⟨x + width - t/2, y + t, x + width - t/2, y + length - t⟩,
         ⟨x + t/2, y + t, x + t/2, y + length - t⟩]) ∧
    create_room 0 0 100 100 8
        [WallDir.north, WallDir.south, WallDir.east, WallDir.west] =
      [⟨0, 4, 100, 4⟩, ⟨0, 96, 100, 96⟩, ⟨96, 8, 96, 92⟩, ⟨4, 8, 4, 92⟩] := by
  constructor
  · intro x y width length t
    simp [create_room]
  · norm_num [create_room]

/-! ## C10: format_dimension does not carry 12 inches into feet -/

/-- C10: in feet-inches mode, when the converted value is at least one
foot and its fractional part rounds to 12 inches, `format_dimension`
returns the truncated feet together with a literal 12-inch component
instead of rolling over to the next whole foot. -/
theorem C10_format_dimension_no_inch_carry (cfg : DimConfig) (len : ℚ)
    (hu : cfg.unit_display = "feet") (hf : cfg.use_feet_inches = true)
    (h1 : 1 ≤ len / cfg.unit_conversion)
    (h12 : pyRound ((len / cfg.unit_conversion -
      ((⌊len / cfg.unit_conversion⌋ : ℤ) : ℚ)) * 12) = 12) :
    format_dimension cfg len =
      .feetInches ⌊len / cfg.unit_conversion⌋ 12 := by
  have h0 : (0:ℚ) ≤ len / cfg.unit_conversion := le_trans zero_le_one h1
  have htr : intTrunc (len / cfg.unit_conversion) =
      ⌊len / cfg.unit_conversion⌋ := by
    simp [intTrunc, h0]
  have hfeet : (0:ℤ) < ⌊len / cfg.unit_conversion⌋ := by
    have h : (1:ℤ) ≤ ⌊len / cfg.unit_conversion⌋ :=
      Int.le_floor.mpr (by exact_mod_cast h1)
    omega
  simp only [format_dimension, htr, h12, hu, hf, and_true, if_true]
  rw [if_pos]
  exact ⟨hfeet, by norm_num⟩

/-- Witness for C10 at the concrete config of the repository
(`unit_conversion = 10`, feet-inches mode) and length `129.9` units,
whose converted value `12.99` feet rounds to 12 feet 12 inches. -/
theorem C10_format_dimension_no_inch_carry_witness :
    (⟨10, 1, "feet", true⟩ : DimConfig).unit_display = "feet" ∧
    (⟨10, 1, "feet", true⟩ : DimConfig).use_feet_inches = true ∧
    (1:ℚ) ≤ (1299/10 : ℚ) / 10 ∧
    pyRound (((1299/10 : ℚ) / 10 -
      ((⌊(1299/10 : ℚ) / 10⌋ : ℤ) : ℚ)) * 12) = 12 ∧
    format_dimension ⟨10, 1, "feet", true⟩ (1299/10) = .feetInches 12 12 := by
  have hdiv : (1299/10 : ℚ) / 10 = 1299/100 := by norm_num
  have hfl : ⌊(1299/10 : ℚ) / 10⌋ = 12 := by rw [hdiv]; norm_num
  have h12 : pyRound (((1299/10 : ℚ) / 10 -
      ((⌊(1299/10 : ℚ) / 10⌋ : ℤ) : ℚ)) * 12) = 12 := by
    rw [hfl, hdiv]
    have harg : ((1299:ℚ)/100 - ((12:ℤ) : ℚ)) * 12 = 297/25 := by norm_num
    rw [harg]
    have hfl2 : ⌊(297:ℚ)/25⌋ = 11 := by norm_num
    rw [pyRound, hfl2]
    norm_num
  have h := C10_format_dimension_no_inch_carry ⟨10, 1, "feet", true⟩ (1299/10)
    rfl rfl (by norm_num) h12
  exact ⟨rfl, rfl, by norm_num, h12, by rw [h, hfl]⟩

/-! ## C7: floor Z offsets -/

/-- C7: the unit-space Z offset of floor `n` is the plinth height plus
the sum over lower floors of slab thickness plus wall height, and the
converted offset strictly increases from floor `n` to `n + 1` whenever
floor `n` has positive wall height (given the nonnegative slab
thickness and positive unit conversion of the configuration). -/
theorem C7_floor_z_offset (cfg : LibConfig) (n : ℕ) :
    get_floor_z_offset_units cfg n =
      cfg.plinth_height +
        (Finset.range n).sum
          (fun k => cfg.floor_slab_thickness + wallHeightOf cfg k) ∧
    (0 ≤ cfg.floor_slab_thickness →
      0 < cfg.units_to_meters_ratio * cfg.scale_factor →
      0 < wallHeightOf cfg n →
      get_floor_z_offset cfg n < get_floor_z_offset cfg (n + 1)) := by
  have hsum : ∀ m : ℕ, get_floor_z_offset_units cfg m =
      cfg.plinth_height +
        (Finset.range m).sum
          (fun k => cfg.floor_slab_thickness + wallHeightOf cfg k) := by
    intro m
    induction m with
    | zero => simp [get_floor_z_offset_units]
    | succ m ih =>
      rw [get_floor_z_offset_units, List.range_succ, List.foldl_append]
      rw [Finset.sum_range_succ]
      simp only [List.foldl_cons, List.foldl_nil]
      rw [← get_floor_z_offset_units, ih]
      ring
  refine ⟨hsum n, ?_⟩
  intro hslab hconv hwall
  have hstep : get_floor_z_offset_units cfg n < get_floor_z_offset_units cfg (n + 1) := by
    rw [hsum n, hsum (n + 1), Finset.sum_range_succ]
    have : 0 < cfg.floor_slab_thickness + wallHeightOf cfg n := by linarith
    linarith
  unfold get_floor_z_offset to_meters
  calc get_floor_z_offset_units cfg n * cfg.units_to_meters_ratio * cfg.scale_factor
      = get_floor_z_offset_units cfg n * (cfg.units_to_meters_ratio * cfg.scale_factor) := by ring
    _ < get_floor_z_offset_units cfg (n + 1) * (cfg.units_to_meters_ratio * cfg.scale_factor) :=
        mul_lt_mul_of_pos_right hstep hconv
    _ = get_floor_z_offset_units cfg (n + 1) * cfg.units_to_meters_ratio * cfg.scale_factor := by ring

/-- Witness for C7 at the repository's `GLOBAL_CONFIG` (plinth 1.5 ft,
slab 0.33 ft, floor heights 10/9/8 ft, feet-to-meter ratio 0.3048,
scale 1), at floor 0. -/
theorem C7_floor_z_offset_witness :
    get_floor_z_offset_units
        ⟨3/2, 33/100, (fun k => if k = 0 then some 10 else if k = 1 then some 9
          else if k = 2 then some 8 else none), 3048/10000, 1⟩ 0 =
      3/2 +
        (Finset.range 0).sum
          (fun k => (33/100 : ℚ) + wallHeightOf
            ⟨3/2, 33/100, (fun k => if k = 0 then some 10 else if k = 1 then some 9
              else if k = 2 then some 8 else none), 3048/10000, 1⟩ k) ∧
    get_floor_z_offset
        ⟨3/2, 33/100, (fun k => if k = 0 then some 10 else if k = 1 then some 9
          else if k = 2 then some 8 else none), 3048/10000, 1⟩ 0 <
      get_floor_z_offset
        ⟨3/2, 33/100, (fun k => if k = 0 then some 10 else if k = 1 then some 9
          else if k = 2 then some 8 else none), 3048/10000, 1⟩ 1 := by
  have h := C7_floor_z_offset
    ⟨3/2, 33/100, (fun k => if k = 0 then some 10 else if k = 1 then some 9
      else if k = 2 then some 8 else none), 3048/10000, 1⟩ 0
  exact ⟨h.1, h.2 (by norm_num) (by norm_num) (by norm_num [wallHeightOf])⟩

/-! ## C2: elevation depth scalars in the front view -/

/-- C2 counterexample: for a floor slab at world `y = 10` the claim
says the depth used to order drawn objects is `y = 10` (larger depth
drawn later), but the depth recorded on the slab's draw entry — the
key of the painter's sorts that fix the drawn order — is `-10`. -/
theorem C2_front_depth_counterexample :
    prelimDepth .front ⟨.floor_slab, 0, 10, 20, 30, 0, 0, 0, 0⟩ = 10 ∧
    slabDrawDepth .front ⟨.floor_slab, 0, 10, 20, 30, 0, 0, 0, 0⟩ = -10 ∧
    slabDrawDepth .front ⟨.floor_slab, 0, 10, 20, 30, 0, 0, 0, 0⟩ ≠
      prelimDepth .front ⟨.floor_slab, 0, 10, 20, 30, 0, 0, 0, 0⟩ := by
  refine ⟨rfl, rfl, ?_⟩
  show (-10 : ℚ) ≠ 10
  norm_num

/-- C2 amended: in the front view the preliminary per-floor ordering
scalar is `y` for floor-aligned objects and `min(start_y, end_y)` for
walls, but the depth stored on the draw entries and used by the final
painter's sorts is the negation: `-y` for slabs and `-start_y` for
horizontal walls. -/
theorem C2_front_depths (o : ElevObj) :
    (o.kind ≠ ElevKind.wall → prelimDepth .front o = o.y) ∧
    (o.kind = ElevKind.wall → prelimDepth .front o = min o.start_y o.end_y) ∧
    slabDrawDepth .front o = -o.y ∧
    wallDrawDepth .front o = -o.start_y := by
  obtain ⟨k, x, y, w, l, sx, sy, ex, ey⟩ := o
  refine ⟨?_, ?_, rfl, rfl⟩
  · intro h
    cases k <;> simp_all [prelimDepth]
  · intro h
    cases k <;> simp_all [prelimDepth]

/-- Witness for C2 at a concrete slab and a concrete wall. -/
theorem C2_front_depths_witness :
    prelimDepth .front ⟨.floor_slab, 0, 7, 1, 2, 0, 0, 0, 0⟩ = 7 ∧
    prelimDepth .front ⟨.wall, 0, 0, 0, 0, 0, 3, 0, 9⟩ = min 3 9 ∧
    slabDrawDepth .front ⟨.floor_slab, 0, 7, 1, 2, 0, 0, 0, 0⟩ = -7 ∧
    wallDrawDepth .front ⟨.wall, 0, 0, 0, 0, 0, 3, 0, 9⟩ = -3 :=
  ⟨(C2_front_depths _).1 (by decide),
   (C2_front_depths _).2.1 rfl,
   (C2_front_depths _).2.2.1,
   (C2_front_depths _).2.2.2⟩

/-! ## C5: in-plane mirroring and sloped wall rendering -/

/-- C5: front and right views mirror the in-plane coordinate as
`span_width - (pos + object_width)` while back and left use it
unchanged, and a wall declared with `height = 0`, `height_end = 47` is
always rendered as a sloped polygon — top corner heights `47`/`0` in
the mirrored front/right views and `0`/`47` in back/left — never as a
flat rectangle. -/
theorem C5_mirroring_and_sloped_walls :
    (∀ width pos objWidth : ℚ,
      world_to_svg_x .front width pos objWidth = width - (pos + objWidth) ∧
      world_to_svg_x .right width pos objWidth = width - (pos + objWidth) ∧
      world_to_svg_x .back width pos objWidth = pos ∧
      world_to_svg_x .left width pos objWidth = pos) ∧
    (∀ (view : ViewType) (totalH width x w z : ℚ),
      drawWallShape view totalH width ⟨x, w, 0, 47, z⟩ =
        WallShape.sloped (world_to_svg_x view width x w)
          (world_to_svg_x view width x w + w)
          (totalH - (z + (if view = .front ∨ view = .right then 47 else 0)))
          (totalH - (z + (if view = .front ∨ view = .right then 0 else 47))) ∧
      ∀ a b c d : ℚ,
        drawWallShape view totalH width ⟨x, w, 0, 47, z⟩ ≠ .flat a b c d) := by
  constructor
  · intro width pos objWidth
    exact ⟨rfl, rfl, rfl, rfl⟩
  · intro view totalH width x w z
    constructor
    · cases view <;> norm_num [drawWallShape]
    · intro a b c d h
      cases view <;> norm_num [drawWallShape] at h <;>
        exact WallShape.noConfusion h

/-! ## C9: determinism and stability of the painter's sort -/

theorem filter_flatten_eq (p : α → Bool) (L : List (List α)) :
    (List.flatten L).filter p = (L.map (List.filter p)).flatten := by
  induction L with
  | nil => rfl
  | cons l ls ih => simp [List.filter_append, ih]

/-- C9: running the elevation ordering pipeline twice on equal inputs
gives equal drawn-object orderings, and both the single painter's sort
and the full two-stage pipeline preserve the original relative order
of objects with equal `(depth, priority)` keys (stability, stated as
preservation of the equal-key sublists). -/
theorem C9_depth_sort_deterministic_and_stable :
    (∀ floors1 floors2 : List (List DrawObj), floors1 = floors2 →
      elevationDrawOrder floors1 = elevationDrawOrder floors2) ∧
    (∀ (l : List DrawObj) (k : ℚ × ℤ),
      (sortObjectsToDraw l).filter (fun w => decide (drawKey w = k)) =
        l.filter (fun w => decide (drawKey w = k))) ∧
    (∀ (floors : List (List DrawObj)) (k : ℚ × ℤ),
      (elevationDrawOrder floors).filter (fun w => decide (drawKey w = k)) =
        (List.flatten floors).filter (fun w => decide (drawKey w = k))) := by
  have hrefl : ∀ a b : DrawObj, drawKey a = drawKey b → drawLe a b = true := by
    intro a b h
    have h1 : a.depth = b.depth := congrArg Prod.fst h
    have h2 : a.priority = b.priority := congrArg Prod.snd h
    simp [drawLe, h1, h2]
  refine ⟨fun f1 f2 h => by rw [h], ?_, ?_⟩
  · intro l k
    exact filter_stableSort drawKey drawLe hrefl l k
  · intro floors k
    unfold elevationDrawOrder sortObjectsToDraw
    rw [filter_stableSort drawKey drawLe hrefl]
    rw [filter_flatten_eq, filter_flatten_eq, List.map_map]
    congr 1
    refine List.map_congr_left ?_
    intro l _
    exact filter_stableSort drawKey drawLe hrefl l k

/-- Witness for C9 at concrete inputs. -/
theorem C9_depth_sort_deterministic_and_stable_witness :
    elevationDrawOrder [[⟨1, 2, 0, 0, 0, 0⟩]] =
      elevationDrawOrder [[⟨1, 2, 0, 0, 0, 0⟩]] ∧
    (sortObjectsToDraw [⟨1, 2, 0, 0, 0, 0⟩]).filter
        (fun w => decide (drawKey w = (1, 2))) =
      [(⟨1, 2, 0, 0, 0, 0⟩ : DrawObj)].filter
        (fun w => decide (drawKey w = (1, 2))) ∧
    (elevationDrawOrder [[⟨1, 2, 0, 0, 0, 0⟩]]).filter
        (fun w => decide (drawKey w = (1, 2))) =
      (List.flatten [[(⟨1, 2, 0, 0, 0, 0⟩ : DrawObj)]]).filter
        (fun w => decide (drawKey w = (1, 2))) :=
  ⟨C9_depth_sort_deterministic_and_stable.1 _ _ rfl,
   C9_depth_sort_deterministic_and_stable.2.1 _ _,
   C9_depth_sort_deterministic_and_stable.2.2 _ _⟩

/-! ## C3: opening dimension chains -/

theorem chainAux_width_count (os : List (ℚ × ℚ)) : ∀ ref : ℚ,
    ((chainAux ref os).filter
      (fun r => decide (r.kind = DimKind.width))).length = os.length := by
  induction os with
  | nil => intro ref; rfl
  | cons p rest ih =>
    intro ref
    obtain ⟨pos, w⟩ := p
    simp [chainAux, List.filter_cons, ih]

theorem chainAux_gap_count (os : List (ℚ × ℚ)) : ∀ ref : ℚ,
    ((chainAux ref os).filter
      (fun r => decide (r.kind ≠ DimKind.width))).length = os.length := by
  induction os with
  | nil => intro ref; rfl
  | cons p rest ih =>
    intro ref
    obtain ⟨pos, w⟩ := p
    have ih2 := ih (pos + w)
    simp only [ne_eq, decide_not] at ih2 ⊢
    simp [chainAux, List.filter_cons, ih2]

theorem chainAux_emission (os : List (ℚ × ℚ)) : ∀ ref : ℚ,
    ∀ r ∈ chainAux ref os,
      (r.kind = DimKind.width → r.emitted = true) ∧
      (r.kind ≠ DimKind.width → (r.emitted = true ↔ 5 < r.value)) := by
  induction os with
  | nil => intro ref r hr; cases hr
  | cons p rest ih =>
    intro ref r hr
    obtain ⟨pos, w⟩ := p
    have hstep : chainAux ref ((pos, w) :: rest) =
        ⟨.gap, |pos - ref|, decide (5 < |pos - ref|)⟩ ::
          (⟨.width, w, true⟩ : DimRec) :: chainAux (pos + w) rest := rfl
    rw [hstep, List.mem_cons, List.mem_cons] at hr
    rcases hr with rfl | rfl | hr
    · exact ⟨fun hk => by simp at hk, fun _ => by simp⟩
    · exact ⟨fun _ => rfl, fun hk => absurd rfl hk⟩
    · exact ih (pos + w) r hr

theorem chainAux_value_sum (os : List (ℚ × ℚ)) : ∀ (ref : ℚ) (p : ℚ × ℚ),
    os.getLast? = some p →
    (∀ q, os.head? = some q → ref ≤ q.1) →
    os.Chain' (fun a b => a.1 + a.2 ≤ b.1) →
    ((chainAux ref os).map DimRec.value).sum = p.1 + p.2 - ref := by
  induction os with
  | nil => intro ref p hp; cases hp
  | cons q rest ih =>
    intro ref p hp hhead hchain
    obtain ⟨pos, w⟩ := q
    have habs : |pos - ref| = pos - ref :=
      abs_of_nonneg (sub_nonneg.mpr (hhead (pos, w) rfl))
    have hstep : chainAux ref ((pos, w) :: rest) =
        ⟨.gap, |pos - ref|, decide (5 < |pos - ref|)⟩ ::
          (⟨.width, w, true⟩ : DimRec) :: chainAux (pos + w) rest := rfl
    rw [hstep, List.map_cons, List.map_cons, List.sum_cons, List.sum_cons, habs]
    cases rest with
    | nil =>
      have hpp : (pos, w) = p := by simpa using hp
      rw [← hpp]
      simp [chainAux]
      ring
    | cons r rest2 =>
      have hlast : (r :: rest2).getLast? = some p := by
        rw [List.getLast?_cons_cons] at hp
        exact hp
      have hch := List.chain'_cons.mp hchain
      have hsum := ih (pos + w) p hlast
        (fun q2 hq2 => by
          have hq2r : r = q2 := by simpa using hq2
          rw [← hq2r]
          exact hch.1)
        hch.2
      rw [hsum]
      ring

/-- C3 amended: for a wall with `k` openings sorted along the wall,
mutually non-overlapping (each opening starts at or after the previous
opening's end) and lying within the inner span, the chain emits exactly
`k` width dimensions, at most `k + 1` gap dimensions, draws width
dimensions always and gap/final-gap dimensions exactly when their value
exceeds 5 units, and the values of all chain dimensions — suppressed
sub-5-unit gaps included — sum exactly to the inner span; a wall with
no openings produces no opening dimensions. -/
theorem C3_opening_chain (innerStart innerEnd : ℚ) (os : List (ℚ × ℚ))
    (hin : ∀ p ∈ os, innerStart ≤ p.1 ∧ p.1 + p.2 ≤ innerEnd)
    (hchain : os.Chain' (fun a b => a.1 + a.2 ≤ b.1)) :
    ((chainDims innerStart innerEnd os).filter
        (fun r => decide (r.kind = DimKind.width))).length = os.length ∧
    ((chainDims innerStart innerEnd os).filter
        (fun r => decide (r.kind ≠ DimKind.width))).length ≤ os.length + 1 ∧
    (∀ r ∈ chainDims innerStart innerEnd os,
      r.kind = DimKind.width → r.emitted = true) ∧
    (∀ r ∈ chainDims innerStart innerEnd os,
      r.kind ≠ DimKind.width → (r.emitted = true ↔ 5 < r.value)) ∧
    (os ≠ [] →
      ((chainDims innerStart innerEnd os).map DimRec.value).sum =
        innerEnd - innerStart) ∧
    chainDims innerStart innerEnd [] = [] := by
  rcases hlast : os.getLast? with _ | p
  · have hnil : os = [] := List.getLast?_eq_none_iff.mp hlast
    subst hnil
    refine ⟨rfl, by simp [chainDims], ?_, ?_, ?_, rfl⟩
    · intro r hr; simp [chainDims] at hr
    · intro r hr; simp [chainDims] at hr
    · intro h; cases h rfl
  · have hdef : chainDims innerStart innerEnd os =
        chainAux innerStart os ++
          [⟨.finalGap, innerEnd - (p.1 + p.2),
            decide (5 < innerEnd - (p.1 + p.2))⟩] := by
      unfold chainDims
      rw [hlast]
    refine ⟨?_, ?_, ?_, ?_, ?_, rfl⟩
    · rw [hdef, List.filter_append, List.length_append, chainAux_width_count]
      simp
    · rw [hdef, List.filter_append, List.length_append, chainAux_gap_count]
      simp [List.filter_cons]
    · intro r hr hk
      rw [hdef] at hr
      rcases List.mem_append.mp hr with hr | hr
      · exact (chainAux_emission os innerStart r hr).1 hk
      · simp at hr
        rw [hr] at hk
        cases hk
    · intro r hr hk
      rw [hdef] at hr
      rcases List.mem_append.mp hr with hr | hr
      · exact (chainAux_emission os innerStart r hr).2 hk
      · simp at hr
        subst hr
        simp
    · intro _
      have hhead : ∀ q, os.head? = some q → innerStart ≤ q.1 := by
        intro q hq
        exact (hin q (List.mem_of_mem_head? hq)).1
      rw [hdef, List.map_append, List.sum_append,
        chainAux_value_sum os innerStart p hlast hhead hchain]
      simp

/-- C3 counterexample: two openings on the wall from 0 to 100 with
thickness 8 (inner span `8..92`), sorted by position and each inside
the inner span but overlapping each other, make the chain's values sum
to 124 (122 counting only drawn dimensions) instead of the inner span
84: the claim's hypotheses do not exclude overlapping openings, for
which the gap values are distances `|pos - reference|` of a reference
point that has moved past the next opening. -/
theorem C3_counterexample :
    ((8:ℚ) ≤ 10 ∧ (10:ℚ) + 30 ≤ 92) ∧
    ((8:ℚ) ≤ 20 ∧ (20:ℚ) + 30 ≤ 92) ∧
    (10:ℚ) ≤ 20 ∧
    ((chainDims 8 92 [(10, 30), (20, 30)]).map DimRec.value).sum = 124 ∧
    ((((chainDims 8 92 [(10, 30), (20, 30)]).filter
        (fun r => r.emitted)).map DimRec.value).sum = 122) ∧
    (92 : ℚ) - 8 = 84 ∧ (124 : ℚ) ≠ 84 ∧ (122 : ℚ) ≠ 84 := by
  have h2 : |(10:ℚ) - 8| = 2 := by norm_num
  have h20 : |(20:ℚ) - 40| = 20 := by norm_num
  have e1 : decide ((5:ℚ) < |(10:ℚ) - 8|) = false := by
    rw [h2]; norm_num
  have e2 : decide ((5:ℚ) < |(20:ℚ) - 40|) = true := by
    rw [h20]; norm_num
  have e3 : decide ((5:ℚ) < 92 - ((20:ℚ) + 30)) = true := by norm_num
  refine ⟨by norm_num, by norm_num, by norm_num, ?_, ?_, by norm_num,
    by norm_num, by norm_num⟩
  · simp [chainDims, chainAux, h2, h20]
    norm_num
  · simp [chainDims, chainAux, List.filter_cons, e1, e2, e3, h2, h20]
    norm_num

/-- Witness for C3 at a wall from 0 to 100 (thickness 8) with two
non-overlapping openings. -/
theorem C3_opening_chain_witness :
    ((chainDims 8 92 [(10, 30), (50, 20)]).filter
        (fun r => decide (r.kind = DimKind.width))).length =
      [((10:ℚ), (30:ℚ)), (50, 20)].length ∧
    ((chainDims 8 92 [(10, 30), (50, 20)]).filter
        (fun r => decide (r.kind ≠ DimKind.width))).length ≤
      [((10:ℚ), (30:ℚ)), (50, 20)].length + 1 ∧
    (∀ r ∈ chainDims 8 92 [(10, 30), (50, 20)],
      r.kind = DimKind.width → r.emitted = true) ∧
    (∀ r ∈ chainDims 8 92 [(10, 30), (50, 20)],
      r.kind ≠ DimKind.width → (r.emitted = true ↔ 5 < r.value)) ∧
    ((chainDims (8:ℚ) 92 [(10, 30), (50, 20)]).map DimRec.value).sum =
      92 - 8 := by
  have h := C3_opening_chain 8 92 [(10, 30), (50, 20)]
    (by intro p hp; fin_cases hp <;> norm_num)
    (by simp [List.chain'_cons]; norm_num)
  exact ⟨h.1, h.2.1, h.2.2.1, h.2.2.2.1, h.2.2.2.2.1 (by simp)⟩

/-! ## C6: unresolved wall references in the floor plan -/

theorem dictAppend_key_mem (m : List (String × List α)) (key : String) (x : α)
    (g : String × List α) (hg : g ∈ dictAppend m key x) :
    g.1 = key ∨ ∃ h ∈ m, g.1 = h.1 := by
  unfold dictAppend at hg
  split at hg
  · rcases List.mem_map.mp hg with ⟨h, hm, heq⟩
    right
    refine ⟨h, hm, ?_⟩
    rw [← heq]
    split <;> rfl
  · rcases List.mem_append.mp hg with hm | hx
    · rcases List.mem_map.mp (List.mem_map_of_mem id hm) with ⟨h, hm2, heq⟩
      exact Or.inr ⟨g, hm, rfl⟩
    · left
      have : g = (key, [x]) := by simpa using hx
      rw [this]

theorem dictAppend_val_mem (m : List (String × List α)) (key : String) (x : α)
    (g : String × List α) (hg : g ∈ dictAppend m key x) (a : α) (ha : a ∈ g.2) :
    a = x ∨ ∃ h ∈ m, a ∈ h.2 := by
  unfold dictAppend at hg
  split at hg
  · rcases List.mem_map.mp hg with ⟨h, hm, heq⟩
    rw [← heq] at ha
    by_cases hk : h.1 = key
    · rw [if_pos hk] at ha
      rcases List.mem_append.mp ha with ha | ha
      · exact Or.inr ⟨h, hm, ha⟩
      · left
        simpa using ha
    · rw [if_neg hk] at ha
      exact Or.inr ⟨h, hm, ha⟩
  · rcases List.mem_append.mp hg with hm | hx
    · exact Or.inr ⟨g, hm, ha⟩
    · have hgx : g = (key, [x]) := by simpa using hx
      rw [hgx] at ha
      left
      simpa using ha

theorem groupOpenings_keys_resolve (bounds : List (String × WallInfo))
    (objs : List FPObj) :
    ∀ g ∈ groupOpenings bounds objs, (bounds.lookup g.1).isSome = true := by
  unfold groupOpenings
  have main : ∀ (objs : List FPObj) (m : List (String × List FPOpening)),
      (∀ g ∈ m, (bounds.lookup g.1).isSome = true) →
      ∀ g ∈ objs.foldl
        (fun m obj =>
          match obj with
          | .opening o =>
            match resolveWallName o with
            | some name =>
              if (bounds.lookup name).isSome then dictAppend m name o else m
            | none => m
          | _ => m) m, (bounds.lookup g.1).isSome = true := by
    intro objs
    induction objs with
    | nil => intro m hm; simpa using hm
    | cons obj rest ih =>
      intro m hm
      rw [List.foldl_cons]
      apply ih
      cases obj with
      | room r => exact hm
      | wall w => exact hm
      | opening o =>
        cases hres : resolveWallName o with
        | none => simpa [hres] using hm
        | some name =>
          by_cases hlk : (bounds.lookup name).isSome
          · simp only [hres, hlk, if_true]
            intro g hg
            rcases dictAppend_key_mem m name o g hg with hk | ⟨h, hmem, hk⟩
            · rw [hk]; exact hlk
            · rw [hk]; exact hm h hmem
          · simpa [hres, hlk] using hm
  exact main objs [] (by intro g hg; cases hg)

theorem groupOpenings_skips_unresolved (bounds : List (String × WallInfo))
    (objs : List FPObj) (o : FPOpening)
    (hun : ∀ name, resolveWallName o = some name → bounds.lookup name = none) :
    ∀ g ∈ groupOpenings bounds objs, o ∉ g.2 := by
  unfold groupOpenings
  have main : ∀ (objs : List FPObj) (m : List (String × List FPOpening)),
      (∀ g ∈ m, o ∉ g.2) →
      ∀ g ∈ objs.foldl
        (fun m obj =>
          match obj with
          | .opening o2 =>
            match resolveWallName o2 with
            | some name =>
              if (bounds.lookup name).isSome then dictAppend m name o2 else m
            | none => m
          | _ => m) m, o ∉ g.2 := by
    intro objs
    induction objs with
    | nil => intro m hm; simpa using hm
    | cons obj rest ih =>
      intro m hm
      rw [List.foldl_cons]
      apply ih
      cases obj with
      | room r => exact hm
      | wall w => exact hm
      | opening o2 =>
        cases hres : resolveWallName o2 with
        | none => simpa [hres] using hm
        | some name =>
          by_cases hlk : (bounds.lookup name).isSome
          · simp only [hres, hlk, if_true]
            intro g hg hog
            rcases dictAppend_val_mem m name o2 g hg o hog with rfl | ⟨h, hmem, hoh⟩
            · rw [hun name hres] at hlk
              simp at hlk
            · exact hm h hmem hoh
          · simpa [hres, hlk] using hm
  exact main objs [] (by intro g hg; cases hg)

theorem dimensionPass_ok (t : ℚ) (bounds : List (String × WallInfo))
    (groups : List (String × List FPOpening))
    (h : ∀ g ∈ groups, (bounds.lookup g.1).isSome = true) :
    ∃ out, dimensionPass t bounds groups = Except.ok out := by
  induction groups with
  | nil => exact ⟨[], rfl⟩
  | cons g gs ih =>
    obtain ⟨out, hout⟩ := ih fun g2 hg2 => h g2 (List.mem_cons_of_mem _ hg2)
    unfold dimensionPass at hout ⊢
    rw [List.foldr_cons, hout]
    rcases hlk : bounds.lookup g.1 with _ | info
    · have := h g (List.mem_cons_self g gs)
      rw [hlk] at this
      simp at this
    · exact ⟨_, rfl⟩

/-- C6 amended: an opening whose wall reference does not resolve never
makes floor-plan generation raise — the grouping guard keeps unresolved
names out, and the dimension pass, which re-indexes `wall_bounds` with
the grouped keys, always succeeds — the opening is silently skipped for
dimensioning (no chain is built for it, and no warning exists in this
path), while its door rectangle is still drawn at the opening's own
coordinates, and the rest of the drawing is generated. -/
theorem C6_unresolved_opening (minX minY maxX maxY t : ℚ) (objs : List FPObj)
    (o : FPOpening) :
    (∃ out,
      dimensionPass t (wallBounds minX minY maxX maxY objs)
        (groupOpenings (wallBounds minX minY maxX maxY objs) objs) =
        Except.ok out) ∧
    ((∀ name, resolveWallName o = some name →
        (wallBounds minX minY maxX maxY objs).lookup name = none) →
      ∀ g ∈ groupOpenings (wallBounds minX minY maxX maxY objs) objs,
        o ∉ g.2) ∧
    (o.isDoor = true → FPObj.opening o ∈ objs →
      (o.x, o.y, o.width, o.direction) ∈ drawnDoorRects objs) := by
  refine ⟨?_, ?_, ?_⟩
  · exact dimensionPass_ok t _ _ (groupOpenings_keys_resolve _ objs)
  · intro hun
    exact groupOpenings_skips_unresolved _ objs o hun
  · intro hd hm
    unfold drawnDoorRects
    apply List.mem_filterMap.mpr
    exact ⟨FPObj.opening o, hm, by simp [hd]⟩

/-- C6 counterexample: a door referencing the nonexistent wall `Ghost`
in a floor with one room is skipped by the dimension grouping, yet its
rectangle is still drawn at its own coordinates — the resulting SVG
does not omit the door's rectangle, contrary to the claim. -/
theorem C6_counterexample :
    (wallBounds 0 0 100 100
      [FPObj.room ⟨"R", 0, 0, 100, 100⟩,
       FPObj.opening ⟨true, 10, 0, 30, "north", none, some "Ghost"⟩]).lookup
        "Ghost" = none ∧
    groupOpenings
      (wallBounds 0 0 100 100
        [FPObj.room ⟨"R", 0, 0, 100, 100⟩,
         FPObj.opening ⟨true, 10, 0, 30, "north", none, some "Ghost"⟩])
      [FPObj.room ⟨"R", 0, 0, 100, 100⟩,
       FPObj.opening ⟨true, 10, 0, 30, "north", none, some "Ghost"⟩] = [] ∧
    drawnDoorRects
      [FPObj.room ⟨"R", 0, 0, 100, 100⟩,
       FPObj.opening ⟨true, 10, 0, 30, "north", none, some "Ghost"⟩] =
      [(10, 0, 30, "north")] ∧
    drawnDoorRects
      [FPObj.room ⟨"R", 0, 0, 100, 100⟩,
       FPObj.opening ⟨true, 10, 0, 30, "north", none, some "Ghost"⟩] ≠ [] := by
  refine ⟨rfl, rfl, rfl, ?_⟩
  intro h
  have h2 : ([] : List (ℚ × ℚ × ℚ × String)) =
      [((10:ℚ), (0:ℚ), (30:ℚ), "north")] :=
    h.symm.trans rfl
  exact List.noConfusion h2

/-- Witness for C6 at the `Ghost` door configuration. -/
theorem C6_unresolved_opening_witness :
    (∃ out,
      dimensionPass 8
        (wallBounds 0 0 100 100
          [FPObj.room ⟨"R", 0, 0, 100, 100⟩,
           FPObj.opening ⟨true, 10, 0, 30, "north", none, some "Ghost"⟩])
        (groupOpenings
          (wallBounds 0 0 100 100
            [FPObj.room ⟨"R", 0, 0, 100, 100⟩,
             FPObj.opening ⟨true, 10, 0, 30, "north", none, some "Ghost"⟩])
          [FPObj.room ⟨"R", 0, 0, 100, 100⟩,
           FPObj.opening ⟨true, 10, 0, 30, "north", none, some "Ghost"⟩]) =
        Except.ok out) ∧
    (∀ g ∈ groupOpenings
        (wallBounds 0 0 100 100
          [FPObj.room ⟨"R", 0, 0, 100, 100⟩,
           FPObj.opening ⟨true, 10, 0, 30, "north", none, some "Ghost"⟩])
        [FPObj.room ⟨"R", 0, 0, 100, 100⟩,
         FPObj.opening ⟨true, 10, 0, 30, "north", none, some "Ghost"⟩],
      (⟨true, 10, 0, 30, "north", none, some "Ghost"⟩ : FPOpening) ∉ g.2) ∧
    ((10 : ℚ), (0 : ℚ), (30 : ℚ), "north") ∈ drawnDoorRects
      [FPObj.room ⟨"R", 0, 0, 100, 100⟩,
       FPObj.opening ⟨true, 10, 0, 30, "north", none, some "Ghost"⟩] := by
  have h := C6_unresolved_opening 0 0 100 100 8
    [FPObj.room ⟨"R", 0, 0, 100, 100⟩,
     FPObj.opening ⟨true, 10, 0, 30, "north", none, some "Ghost"⟩]
    ⟨true, 10, 0, 30, "north", none, some "Ghost"⟩
  refine ⟨h.1, h.2.1 ?_, h.2.2 rfl (by simp)⟩
  intro name hname
  have hn : name = "Ghost" := by
    have h0 : ("Ghost" : String) = name := by injection hname
    exact h0.symm
  rw [hn]
  rfl

/-! ## C1: greedy offset-level packing

The development relates the source function to the ghost run
(`assignLoopG`, which stores originating edges instead of bare spans),
proves the per-level non-overlap invariant, and settles minimality:
a counterexample for arbitrary edge orientation, and a proof of
first-fit optimality when every edge is coordinate-normalized
(`x1 <= x2` along the packing axis), the case in which the sort key
coincides with the interval start. -/

theorem rangesOverlap_symm (a b : ℚ × ℚ) :
    rangesOverlap a b = rangesOverlap b a := by
  unfold rangesOverlap
  rw [Bool.and_comm]
  congr 1
  · exact decide_eq_decide.mpr (by constructor <;> intro <;> linarith)
  · exact decide_eq_decide.mpr (by constructor <;> intro <;> linarith)

theorem edgesOverlap_symm (ih : Bool) (a b : Edge) :
    edgesOverlap ih a b = edgesOverlap ih b a := by
  unfold edgesOverlap
  exact rangesOverlap_symm _ _

theorem insertRangeG_erase (ih : Bool) (e : Edge) (L : List (List Edge)) :
    insertRange (erange ih e) (L.map (List.map (erange ih))) =
      ((insertRangeG ih e L).1,
        (insertRangeG ih e L).2.map (List.map (erange ih))) := by
  induction L with
  | nil => rfl
  | cons lvl rest ihL =>
    by_cases hall :
        lvl.all (fun q => !(rangesOverlap (erange ih e) (erange ih q))) = true
    · have hall2 : (lvl.map (erange ih)).all
          (fun q => !(rangesOverlap (erange ih e) q)) = true := by
        simpa [List.all_map, Function.comp] using hall
      simp only [List.map_cons, insertRange, insertRangeG, hall, hall2, if_true]
      simp [List.map_append]
    · have hall2 : ¬ ((lvl.map (erange ih)).all
          (fun q => !(rangesOverlap (erange ih e) q)) = true) := by
        simpa [List.all_map, Function.comp] using hall
      simp only [List.map_cons, insertRange, insertRangeG, if_neg hall,
        if_neg hall2]
      rw [ihL]

theorem assignLoop_erase (ih : Bool) (es : List Edge) :
    ∀ L : List (List Edge),
    assignLoop ih es (L.map (List.map (erange ih))) =
      ((assignLoopG ih es L).1,
        (assignLoopG ih es L).2.map (List.map (erange ih))) := by
  induction es with
  | nil => intro L; rfl
  | cons e es ihE =>
    intro L
    simp only [assignLoop, assignLoopG, insertRangeG_erase ih e L, ihE]

theorem adol_eq_ghost (edges : List Edge) (ih : Bool) :
    assign_dimension_offset_levels edges ih =
      (assignLoopG ih (stableSort (edgeKeyLe ih) edges) []).1 := by
  unfold assign_dimension_offset_levels
  have h := assignLoop_erase ih (stableSort (edgeKeyLe ih) edges) []
  simp only [List.map_nil] at h
  rw [h]

theorem insertRangeG_le (ih : Bool) (e : Edge) (L : List (List Edge)) :
    (insertRangeG ih e L).1 ≤ L.length := by
  induction L with
  | nil => exact le_refl 0
  | cons lvl rest ihL =>
    by_cases hall :
        lvl.all (fun q => !(rangesOverlap (erange ih e) (erange ih q))) = true
    · simp [insertRangeG, hall]
    · simp only [insertRangeG, if_neg hall, List.length_cons]
      exact Nat.succ_le_succ ihL

theorem insertRangeG_get (ih : Bool) (e : Edge) (L : List (List Edge)) :
    ∀ j : ℕ,
      (((insertRangeG ih e L).2)[j]?).getD [] =
        (L[j]?).getD [] ++
          (if j = (insertRangeG ih e L).1 then [e] else []) := by
  induction L with
  | nil =>
    intro j
    cases j <;> simp [insertRangeG]
  | cons lvl rest ihL =>
    intro j
    by_cases hall :
        lvl.all (fun q => !(rangesOverlap (erange ih e) (erange ih q))) = true
    · cases j <;> simp [insertRangeG, hall]
    · cases j with
      | zero =>
        simp only [insertRangeG]
        rw [if_neg hall]
        simp
      | succ j =>
        simp only [insertRangeG, if_neg hall, List.getElem?_cons_succ]
        rw [ihL j]
        simp [Nat.succ_inj]

theorem insertRangeG_length (ih : Bool) (e : Edge) (L : List (List Edge)) :
    (insertRangeG ih e L).2.length =
      max L.length ((insertRangeG ih e L).1 + 1) := by
  induction L with
  | nil => rfl
  | cons lvl rest ihL =>
    by_cases hall :
        lvl.all (fun q => !(rangesOverlap (erange ih e) (erange ih q))) = true
    · simp [insertRangeG, hall]
    · simp only [insertRangeG, if_neg hall, List.length_cons, ihL]
      omega

theorem insertRangeG_no_overlap (ih : Bool) (e : Edge) (L : List (List Edge)) :
    ∀ q ∈ ((L[(insertRangeG ih e L).1]?).getD []),
      rangesOverlap (erange ih e) (erange ih q) = false := by
  induction L with
  | nil => intro q hq; simp at hq
  | cons lvl rest ihL =>
    by_cases hall :
        lvl.all (fun q => !(rangesOverlap (erange ih e) (erange ih q))) = true
    · intro q hq
      simp only [insertRangeG, hall, if_true, List.getElem?_cons_zero,
        Option.getD_some] at hq
      have := List.all_eq_true.mp hall q hq
      simpa using this
    · intro q hq
      simp only [insertRangeG, if_neg hall, List.getElem?_cons_succ] at hq
      exact ihL q hq

theorem insertRangeG_conflicts (ih : Bool) (e : Edge) (L : List (List Edge)) :
    (insertRangeG ih e L).1 = L.length →
    ∀ lvl ∈ L, ∃ q ∈ lvl, rangesOverlap (erange ih e) (erange ih q) = true := by
  induction L with
  | nil => intro _ lvl hl; cases hl
  | cons lvl0 rest ihL =>
    intro hnew lvl hl
    by_cases hall :
        lvl0.all (fun q => !(rangesOverlap (erange ih e) (erange ih q))) = true
    · simp only [insertRangeG, hall, if_true, List.length_cons] at hnew
      cases hnew
    · simp only [insertRangeG, if_neg hall, List.length_cons,
        Nat.succ_inj] at hnew
      rcases List.mem_cons.mp hl with rfl | hl
      · rcases List.all_eq_true.not.mp hall with h
        push_neg at h
        obtain ⟨q, hq, hne⟩ := h
        exact ⟨q, hq, by simpa using hne⟩
      · exact ihL hnew lvl hl

theorem insertRangeG_flatten_perm (ih : Bool) (e : Edge) (L : List (List Edge)) :
    (insertRangeG ih e L).2.flatten.Perm (e :: L.flatten) := by
  induction L with
  | nil => simp [insertRangeG]
  | cons lvl rest ihL =>
    by_cases hall :
        lvl.all (fun q => !(rangesOverlap (erange ih e) (erange ih q))) = true
    · simp only [insertRangeG, hall, if_true, List.flatten_cons]
      rw [List.append_assoc, List.singleton_append]
      exact List.perm_middle
    · simp only [insertRangeG, if_neg hall, List.flatten_cons]
      exact (ihL.append_left lvl).trans List.perm_middle

theorem assignLoopG_fst_map (ih : Bool) (es : List Edge) :
    ∀ L : List (List Edge), (assignLoopG ih es L).1.map Prod.fst = es := by
  induction es with
  | nil => intro L; rfl
  | cons e es ihE =>
    intro L
    simp [assignLoopG, ihE]

theorem assignLoopG_get (ih : Bool) (es : List Edge) :
    ∀ (L : List (List Edge)) (j : ℕ),
      (((assignLoopG ih es L).2)[j]?).getD [] =
        (L[j]?).getD [] ++
          ((assignLoopG ih es L).1.filter
            (fun p => decide (p.2 = j))).map Prod.fst := by
  induction es with
  | nil => intro L j; simp [assignLoopG]
  | cons e es ihE =>
    intro L j
    have hstep : assignLoopG ih (e :: es) L =
        ((e, (insertRangeG ih e L).1) ::
            (assignLoopG ih es (insertRangeG ih e L).2).1,
          (assignLoopG ih es (insertRangeG ih e L).2).2) := rfl
    rw [hstep]
    rw [ihE (insertRangeG ih e L).2 j, insertRangeG_get ih e L j]
    rw [List.filter_cons]
    by_cases hij : (insertRangeG ih e L).1 = j
    · simp [hij, List.append_assoc]
    · have hji : ¬ (j = (insertRangeG ih e L).1) := fun h => hij h.symm
      simp [hij, hji]

theorem assignLoopG_mem_level (ih : Bool) (es : List Edge) :
    ∀ (L : List (List Edge)) (a : Edge) (j : ℕ),
      a ∈ ((L[j]?).getD []) →
      ∀ p ∈ (assignLoopG ih es L).1, p.2 = j →
        rangesOverlap (erange ih p.1) (erange ih a) = false := by
  induction es with
  | nil => intro L a j _ p hp; cases hp
  | cons e es ihE =>
    intro L a j ha p hp hpj
    have hstep : assignLoopG ih (e :: es) L =
        ((e, (insertRangeG ih e L).1) ::
            (assignLoopG ih es (insertRangeG ih e L).2).1,
          (assignLoopG ih es (insertRangeG ih e L).2).2) := rfl
    rw [hstep] at hp
    rcases List.mem_cons.mp hp with rfl | hp
    · have hj : j = (insertRangeG ih e L).1 := hpj.symm
      subst hj
      exact insertRangeG_no_overlap ih e L a ha
    · have ha2 : a ∈ (((insertRangeG ih e L).2)[j]?).getD [] := by
        rw [insertRangeG_get ih e L j]
        exact List.mem_append_left _ ha
      exact ihE (insertRangeG ih e L).2 a j ha2 p hp hpj

theorem assignLoopG_pairwise (ih : Bool) (es : List Edge) :
    ∀ L : List (List Edge),
      (assignLoopG ih es L).1.Pairwise
        (fun p q => p.2 = q.2 → edgesOverlap ih p.1 q.1 = false) := by
  induction es with
  | nil => intro L; exact List.Pairwise.nil
  | cons e es ihE =>
    intro L
    have hstep : assignLoopG ih (e :: es) L =
        ((e, (insertRangeG ih e L).1) ::
            (assignLoopG ih es (insertRangeG ih e L).2).1,
          (assignLoopG ih es (insertRangeG ih e L).2).2) := rfl
    rw [hstep]
    refine List.Pairwise.cons ?_ (ihE (insertRangeG ih e L).2)
    intro q hq hqj
    have he : e ∈ (((insertRangeG ih e L).2)[(insertRangeG ih e L).1]?).getD [] := by
      rw [insertRangeG_get ih e L]
      simp
    have h := assignLoopG_mem_level ih es (insertRangeG ih e L).2 e
      (insertRangeG ih e L).1 he q hq hqj.symm
    rw [edgesOverlap_symm]
    exact h

theorem assignLoopG_ne_nil (ih : Bool) (es : List Edge) :
    ∀ L : List (List Edge), (∀ lvl ∈ L, lvl ≠ []) →
      ∀ lvl ∈ (assignLoopG ih es L).2, lvl ≠ [] := by
  have hins : ∀ (e : Edge) (L : List (List Edge)), (∀ lvl ∈ L, lvl ≠ []) →
      ∀ lvl ∈ (insertRangeG ih e L).2, lvl ≠ [] := by
    intro e L
    induction L with
    | nil =>
      intro _ lvl hl
      simp only [insertRangeG] at hl
      rcases List.mem_singleton.mp hl with rfl
      simp
    | cons lvl0 rest ihL =>
      intro hL lvl hl
      by_cases hall :
          lvl0.all (fun q => !(rangesOverlap (erange ih e) (erange ih q))) = true
      · simp only [insertRangeG, hall, if_true] at hl
        rcases List.mem_cons.mp hl with rfl | hl
        · simp
        · exact hL lvl (List.mem_cons_of_mem _ hl)
      · simp only [insertRangeG, if_neg hall] at hl
        rcases List.mem_cons.mp hl with rfl | hl
        · exact hL lvl (List.mem_cons_self _ _)
        · exact ihL (fun l hl2 => hL l (List.mem_cons_of_mem _ hl2)) lvl hl
  induction es with
  | nil => intro L hL; simpa [assignLoopG] using hL
  | cons e es ihE =>
    intro L hL
    exact ihE (insertRangeG ih e L).2 (hins e L hL)

theorem assignLoopG_snd_bound (ih : Bool) (es : List Edge)
    (L : List (List Edge)) :
    ∀ p ∈ (assignLoopG ih es L).1, p.2 < (assignLoopG ih es L).2.length := by
  intro p hp
  by_contra hge
  push_neg at hge
  have hnone : ((assignLoopG ih es L).2)[p.2]? = none :=
    List.getElem?_eq_none hge
  have h := assignLoopG_get ih es L p.2
  rw [hnone] at h
  have hmem : p.1 ∈ ((assignLoopG ih es L).1.filter
      (fun q => decide (q.2 = p.2))).map Prod.fst :=
    List.mem_map_of_mem _ (List.mem_filter.mpr ⟨hp, by simp⟩)
  have h2 : (L[p.2]?).getD [] ++
      ((assignLoopG ih es L).1.filter
        (fun q => decide (q.2 = p.2))).map Prod.fst = [] := by
    simpa using h.symm
  rw [(List.append_eq_nil.mp h2).2] at hmem
  cases hmem

theorem assignLoopG_surj (ih : Bool) (es : List Edge) (j : ℕ)
    (hj : j < (assignLoopG ih es ([] : List (List Edge))).2.length) :
    ∃ p ∈ (assignLoopG ih es ([] : List (List Edge))).1, p.2 = j := by
  have hlvl : ((assignLoopG ih es ([] : List (List Edge))).2)[j]?.getD [] ≠ [] := by
    have hsome := List.getElem?_eq_getElem hj
    rw [hsome]
    exact assignLoopG_ne_nil ih es [] (by intro lvl hl; cases hl) _
      (List.getElem_mem hj)
  rw [assignLoopG_get ih es [] j] at hlvl
  simp only [List.getElem?_nil, Option.getD_none, List.nil_append] at hlvl
  rcases List.exists_mem_of_ne_nil _ hlvl with ⟨a, ha⟩
  rcases List.mem_map.mp ha with ⟨p, hpf, _⟩
  exact ⟨p, List.mem_filter.mp hpf |>.1, by
    have := (List.mem_filter.mp hpf).2
    simpa using this⟩

theorem assignLoopG_distinct (ih : Bool) (es : List Edge) :
    distinctCount ((assignLoopG ih es ([] : List (List Edge))).1.map Prod.snd) =
      (assignLoopG ih es ([] : List (List Edge))).2.length := by
  have hset : ((assignLoopG ih es ([] : List (List Edge))).1.map
      Prod.snd).toFinset =
      Finset.range (assignLoopG ih es ([] : List (List Edge))).2.length := by
    ext j
    simp only [List.mem_toFinset, List.mem_map, Finset.mem_range]
    constructor
    · rintro ⟨p, hp, rfl⟩
      exact assignLoopG_snd_bound ih es [] p hp
    · intro hj
      rcases assignLoopG_surj ih es j hj with ⟨p, hp, hpj⟩
      exact ⟨p, hp, hpj⟩
  have hcard := congrArg Finset.card hset
  rw [List.card_toFinset, Finset.card_range] at hcard
  exact hcard

theorem subperm_append {a b c d : List α}
    (h1 : List.Subperm a b) (h2 : List.Subperm c d) :
    List.Subperm (a ++ c) (b ++ d) := by
  obtain ⟨a2, pa, sa⟩ := h1
  obtain ⟨c2, pc, sc⟩ := h2
  exact ⟨a2 ++ c2, pa.append pc, sa.append sc⟩

theorem subperm_cons_cons (x : α) {l₁ l₂ : List α} (h : List.Subperm l₁ l₂) :
    List.Subperm (x :: l₁) (x :: l₂) := by
  obtain ⟨w, p, s⟩ := h
  exact ⟨x :: w, p.cons x, s.cons₂ x⟩

theorem singleton_subperm_of_mem {a : α} {l : List α} (h : a ∈ l) :
    List.Subperm [a] l :=
  ⟨[a], List.Perm.refl _, List.singleton_sublist.mpr h⟩

theorem exists_picks (P : Edge → Prop) :
    ∀ L : List (List Edge), (∀ lvl ∈ L, ∃ q ∈ lvl, P q) →
    ∃ picks : List Edge, List.Subperm picks L.flatten ∧
      picks.length = L.length ∧ ∀ q ∈ picks, P q := by
  intro L
  induction L with
  | nil => intro _; exact ⟨[], List.nil_subperm, rfl, by intro q hq; cases hq⟩
  | cons lvl rest ihL =>
    intro h
    obtain ⟨q, hq, hPq⟩ := h lvl (List.mem_cons_self _ _)
    obtain ⟨picks, hsub, hlen, hP⟩ :=
      ihL fun l hl => h l (List.mem_cons_of_mem _ hl)
    refine ⟨q :: picks, ?_, by simp [hlen], ?_⟩
    · rw [List.flatten_cons]
      exact subperm_append (singleton_subperm_of_mem hq) hsub
    · intro r hr
      rcases List.mem_cons.mp hr with rfl | hr
      · exact hPq
      · exact hP r hr

theorem edgesOverlap_of_common (ih : Bool) (a b c : Edge)
    (hax : (edgeProj ih a).1 ≤ (edgeProj ih a).2)
    (hbx : (edgeProj ih b).1 ≤ (edgeProj ih b).2)
    (hcx : (edgeProj ih c).1 ≤ (edgeProj ih c).2)
    (ha : (edgeProj ih a).1 ≤ (edgeProj ih c).1)
    (hb : (edgeProj ih b).1 ≤ (edgeProj ih c).1)
    (hca : edgesOverlap ih c a = true) (hcb : edgesOverlap ih c b = true) :
    edgesOverlap ih a b = true := by
  unfold edgesOverlap rangesOverlap erange at hca hcb ⊢
  rw [min_eq_left hax, max_eq_right hax, min_eq_left hbx, max_eq_right hbx] at *
  rw [min_eq_left hcx, max_eq_right hcx] at hca hcb
  simp only [Bool.and_eq_true, decide_eq_true_eq] at hca hcb ⊢
  exact ⟨by linarith [hcb.1], by linarith [hca.1]⟩

theorem greedy_clique (ih : Bool) :
    ∀ (es : List Edge) (L : List (List Edge)) (done : List Edge),
    L.flatten.Perm done →
    (∀ d ∈ done, ∀ f ∈ es, (edgeProj ih d).1 ≤ (edgeProj ih f).1) →
    es.Pairwise (fun a b => (edgeProj ih a).1 ≤ (edgeProj ih b).1) →
    (∀ d ∈ done, (edgeProj ih d).1 ≤ (edgeProj ih d).2) →
    (∀ f ∈ es, (edgeProj ih f).1 ≤ (edgeProj ih f).2) →
    (∃ c : List Edge, List.Subperm c done ∧ c.length = L.length ∧
      c.Pairwise (fun a b => edgesOverlap ih a b = true)) →
    ∃ c : List Edge, List.Subperm c (done ++ es) ∧
      c.length = (assignLoopG ih es L).2.length ∧
      c.Pairwise (fun a b => edgesOverlap ih a b = true) := by
  intro es
  induction es with
  | nil =>
    intro L done _ _ _ _ _ hc
    simpa [assignLoopG] using hc
  | cons e es ihE =>
    intro L done hperm hord hsort hxd hxe hc
    have hstep : (assignLoopG ih (e :: es) L).2 =
        (assignLoopG ih es (insertRangeG ih e L).2).2 := rfl
    have hperm2 : (insertRangeG ih e L).2.flatten.Perm (done ++ [e]) :=
      ((insertRangeG_flatten_perm ih e L).trans (hperm.cons e)).trans
        (List.perm_append_singleton e done).symm
    have hord2 : ∀ d ∈ done ++ [e], ∀ f ∈ es,
        (edgeProj ih d).1 ≤ (edgeProj ih f).1 := by
      intro d hd f hf
      rcases List.mem_append.mp hd with hd | hd
      · exact hord d hd f (List.mem_cons_of_mem _ hf)
      · rcases List.mem_singleton.mp hd with rfl
        exact List.rel_of_pairwise_cons hsort hf
    have hsort2 : es.Pairwise
        (fun a b => (edgeProj ih a).1 ≤ (edgeProj ih b).1) :=
      List.Pairwise.of_cons hsort
    have hxd2 : ∀ d ∈ done ++ [e], (edgeProj ih d).1 ≤ (edgeProj ih d).2 := by
      intro d hd
      rcases List.mem_append.mp hd with hd | hd
      · exact hxd d hd
      · rcases List.mem_singleton.mp hd with rfl
        exact hxe d (List.mem_cons_self _ _)
    have hxe2 : ∀ f ∈ es, (edgeProj ih f).1 ≤ (edgeProj ih f).2 :=
      fun f hf => hxe f (List.mem_cons_of_mem _ hf)
    by_cases hnew : (insertRangeG ih e L).1 = L.length
    · obtain ⟨picks, hsub, hlen, hP⟩ := exists_picks
        (fun q => rangesOverlap (erange ih e) (erange ih q) = true) L
        (insertRangeG_conflicts ih e L hnew)
      have hsubd : List.Subperm picks done := hsub.trans hperm.subperm
      have hmemd : ∀ q ∈ picks, q ∈ done := fun q hq => hsubd.subset hq
      have hclique2 : ∃ c : List Edge,
          List.Subperm c (done ++ [e]) ∧
          c.length = (insertRangeG ih e L).2.length ∧
          c.Pairwise (fun a b => edgesOverlap ih a b = true) := by
        refine ⟨e :: picks, ?_, ?_, ?_⟩
        · exact (subperm_cons_cons e hsubd).trans
            (List.perm_append_singleton e done).symm.subperm
        · rw [insertRangeG_length, hnew]
          simp [hlen]
        · refine List.Pairwise.cons ?_ ?_
          · intro q hq
            exact hP q hq
          · refine List.pairwise_of_forall_mem_list ?_
            intro a ha b hb
            exact edgesOverlap_of_common ih a b e
              (hxd a (hmemd a ha)) (hxd b (hmemd b hb))
              (hxe e (List.mem_cons_self _ _))
              (hord a (hmemd a ha) e (List.mem_cons_self _ _))
              (hord b (hmemd b hb) e (List.mem_cons_self _ _))
              (hP a ha) (hP b hb)
      obtain ⟨c, hcs, hcl, hcp⟩ := ihE (insertRangeG ih e L).2 (done ++ [e])
        hperm2 hord2 hsort2 hxd2 hxe2 hclique2
      refine ⟨c, ?_, by rw [hstep]; exact hcl, hcp⟩
      rwa [List.append_assoc, List.singleton_append] at hcs
    · have hlt : (insertRangeG ih e L).1 < L.length :=
        lt_of_le_of_ne (insertRangeG_le ih e L) hnew
      obtain ⟨c0, hc0s, hc0l, hc0p⟩ := hc
      have hclique2 : ∃ c : List Edge,
          List.Subperm c (done ++ [e]) ∧
          c.length = (insertRangeG ih e L).2.length ∧
          c.Pairwise (fun a b => edgesOverlap ih a b = true) := by
        refine ⟨c0, ?_, ?_, hc0p⟩
        · exact hc0s.trans (List.sublist_append_left done [e]).subperm
        · rw [insertRangeG_length, hc0l]
          omega
      obtain ⟨c, hcs, hcl, hcp⟩ := ihE (insertRangeG ih e L).2 (done ++ [e])
        hperm2 hord2 hsort2 hxd2 hxe2 hclique2
      refine ⟨c, ?_, by rw [hstep]; exact hcl, hcp⟩
      rwa [List.append_assoc, List.singleton_append] at hcs

theorem clique_lower_bound (ih : Bool) (c : List Edge)
    (pairs : List (Edge × ℕ))
    (hc : List.Subperm c (pairs.map Prod.fst))
    (hcp : c.Pairwise (fun a b => edgesOverlap ih a b = true))
    (hv : ValidAssignment ih pairs) :
    c.length ≤ distinctCount (pairs.map Prod.snd) := by
  obtain ⟨c0, hperm, hsub⟩ := hc
  obtain ⟨cp, hcpsub, hcp0⟩ := List.sublist_map_iff.mp hsub
  have hsymm : ∀ {x y : Edge},
      edgesOverlap ih x y = true → edgesOverlap ih y x = true := by
    intro x y h
    rwa [edgesOverlap_symm]
  have hc0p : c0.Pairwise (fun a b => edgesOverlap ih a b = true) :=
    (List.Perm.pairwise_iff hsymm hperm).mpr hcp
  have hcpov : cp.Pairwise
      (fun p q => edgesOverlap ih p.1 q.1 = true) := by
    rw [hcp0] at hc0p
    exact List.pairwise_map.mp hc0p
  have hvney : cp.Pairwise
      (fun p q => edgesOverlap ih p.1 q.1 = true → p.2 ≠ q.2) :=
    List.Pairwise.sublist hcpsub hv
  have hne : cp.Pairwise (fun p q => p.2 ≠ q.2) :=
    (hcpov.and hvney).imp fun h => h.2 h.1
  have hnodup : (cp.map Prod.snd).Nodup := List.pairwise_map.mpr hne
  have hsubs : cp.map Prod.snd ⊆ (pairs.map Prod.snd).dedup := by
    intro x hx
    rw [List.mem_dedup]
    exact (hcpsub.map Prod.snd).subset hx
  have hlen := (hnodup.subperm hsubs).length_le
  calc c.length = c0.length := hperm.length_eq.symm
    _ = cp.length := by rw [hcp0, List.length_map]
    _ = (cp.map Prod.snd).length := (List.length_map _ _).symm
    _ ≤ (pairs.map Prod.snd).dedup.length := hlen
    _ = distinctCount (pairs.map Prod.snd) := rfl

theorem tupleLe_total (a b : ℚ × ℚ) : tupleLe a b = true ∨ tupleLe b a = true := by
  unfold tupleLe
  rcases lt_trichotomy a.1 b.1 with h | h | h
  · exact Or.inl (decide_eq_true (Or.inl h))
  · rcases le_total a.2 b.2 with h2 | h2
    · exact Or.inl (decide_eq_true (Or.inr ⟨h, h2⟩))
    · exact Or.inr (decide_eq_true (Or.inr ⟨h.symm, h2⟩))
  · exact Or.inr (decide_eq_true (Or.inl h))

theorem tupleLe_trans (a b c : ℚ × ℚ) (h1 : tupleLe a b = true)
    (h2 : tupleLe b c = true) : tupleLe a c = true := by
  have h1' := of_decide_eq_true h1
  have h2' := of_decide_eq_true h2
  apply decide_eq_true
  rcases h1' with h | ⟨he, hy⟩ <;> rcases h2' with h' | ⟨he2, hy2⟩
  · exact Or.inl (h.trans h')
  · exact Or.inl (he2 ▸ h)
  · exact Or.inl (he ▸ h')
  · exact Or.inr ⟨he.trans he2, hy.trans hy2⟩

theorem edgeKeyLe_total (ih : Bool) (a b : Edge) :
    edgeKeyLe ih a b = true ∨ edgeKeyLe ih b a = true :=
  tupleLe_total _ _

theorem edgeKeyLe_trans (ih : Bool) (a b c : Edge)
    (h1 : edgeKeyLe ih a b = true) (h2 : edgeKeyLe ih b c = true) :
    edgeKeyLe ih a c = true :=
  tupleLe_trans _ _ _ h1 h2

theorem edgeKeyLe_fst_le (ih : Bool) (a b : Edge)
    (h : edgeKeyLe ih a b = true) :
    (edgeProj ih a).1 ≤ (edgeProj ih b).1 := by
  have h' := of_decide_eq_true h
  rcases h' with h' | ⟨he, _⟩
  · exact le_of_lt h'
  · exact le_of_eq he

/-- C1 amended: the greedy first-fit assignment never places two
overlapping edges (under the 5-unit gap-expanded test) at the same
level, its per-edge level list covers exactly the input edges, and —
when every edge is given with its coordinates ordered along the packing
axis, so that the sort key `(x1, x2)` equals the interval start — the
number of distinct levels it creates is minimal among all valid level
assignments of those edges. -/
theorem C1_offset_levels (ih : Bool) (edges : List Edge) :
    (assign_dimension_offset_levels edges ih).Pairwise
      (fun p q => p.2 = q.2 → edgesOverlap ih p.1 q.1 = false) ∧
    ValidAssignment ih (assign_dimension_offset_levels edges ih) ∧
    ((assign_dimension_offset_levels edges ih).map Prod.fst).Perm edges ∧
    ((∀ e ∈ edges, (edgeProj ih e).1 ≤ (edgeProj ih e).2) →
      ∀ pairs : List (Edge × ℕ), (pairs.map Prod.fst).Perm edges →
        ValidAssignment ih pairs →
        offsetLevelCount edges ih ≤ distinctCount (pairs.map Prod.snd)) := by
  have hghost := adol_eq_ghost edges ih
  have hpair := assignLoopG_pairwise ih (stableSort (edgeKeyLe ih) edges) []
  refine ⟨?_, ?_, ?_, ?_⟩
  · rw [hghost]
    exact hpair
  · unfold ValidAssignment
    rw [hghost]
    exact hpair.imp fun h hov heq => by
      rw [h heq] at hov
      exact Bool.noConfusion hov
  · rw [hghost, assignLoopG_fst_map]
    exact stableSort_perm _ _
  · intro hx pairs hp hv
    unfold offsetLevelCount
    rw [hghost, assignLoopG_distinct]
    have hsorted : (stableSort (edgeKeyLe ih) edges).Pairwise
        (fun a b => (edgeProj ih a).1 ≤ (edgeProj ih b).1) :=
      (stableSort_pairwise (edgeKeyLe ih) (edgeKeyLe_total ih)
        (edgeKeyLe_trans ih) edges).imp
        (fun h => edgeKeyLe_fst_le ih _ _ h)
    have hxs : ∀ e ∈ stableSort (edgeKeyLe ih) edges,
        (edgeProj ih e).1 ≤ (edgeProj ih e).2 :=
      fun e he => hx e ((stableSort_perm _ _).subset he)
    obtain ⟨c, hcs, hcl, hcp⟩ := greedy_clique ih
      (stableSort (edgeKeyLe ih) edges) [] []
      (List.Perm.refl _) (by intro d hd; cases hd) hsorted
      (by intro d hd; cases hd) hxs
      ⟨[], List.nil_subperm, rfl, List.Pairwise.nil⟩
    rw [List.nil_append] at hcs
    have hcs2 : List.Subperm c (pairs.map Prod.fst) :=
      hcs.trans ((stableSort_perm _ _).trans hp.symm).subperm
    have hlow := clique_lower_bound ih c pairs hcs2 hcp hv
    rw [← hcl]
    exact hlow

/-- C1 counterexample: four horizontal edges, two of them declared with
reversed coordinates (`x1 > x2`).  The sort key `(x1, x2)` then differs
from the interval start, the greedy run processes the spans out of
start order and creates 3 levels, while a valid assignment with only 2
distinct levels exists — so the level count is not minimal for
arbitrary edge lists, refuting the claim as stated. -/
theorem C1_counterexample :
    offsetLevelCount
      [⟨0, 0, 10, 0⟩, ⟨30, 0, 0, 0⟩, ⟨40, 0, 50, 0⟩, ⟨60, 0, 20, 0⟩]
      true = 3 ∧
    (([((⟨0, 0, 10, 0⟩ : Edge), (0 : ℕ)), (⟨30, 0, 0, 0⟩, 1),
        (⟨40, 0, 50, 0⟩, 1), (⟨60, 0, 20, 0⟩, 0)].map Prod.fst).Perm
      [⟨0, 0, 10, 0⟩, ⟨30, 0, 0, 0⟩, ⟨40, 0, 50, 0⟩, ⟨60, 0, 20, 0⟩]) ∧
    ValidAssignment true
      [((⟨0, 0, 10, 0⟩ : Edge), (0 : ℕ)), (⟨30, 0, 0, 0⟩, 1),
        (⟨40, 0, 50, 0⟩, 1), (⟨60, 0, 20, 0⟩, 0)] ∧
    distinctCount
      ([((⟨0, 0, 10, 0⟩ : Edge), (0 : ℕ)), (⟨30, 0, 0, 0⟩, 1),
        (⟨40, 0, 50, 0⟩, 1), (⟨60, 0, 20, 0⟩, 0)].map Prod.snd) = 2 := by
  have hk1 : edgeKeyLe true ⟨0, 0, 10, 0⟩ ⟨30, 0, 0, 0⟩ = true := by
    norm_num [edgeKeyLe, tupleLe, edgeProj]
  have hk2 : edgeKeyLe true ⟨30, 0, 0, 0⟩ ⟨40, 0, 50, 0⟩ = true := by
    norm_num [edgeKeyLe, tupleLe, edgeProj]
  have hk3 : edgeKeyLe true ⟨40, 0, 50, 0⟩ ⟨60, 0, 20, 0⟩ = true := by
    norm_num [edgeKeyLe, tupleLe, edgeProj]
  have her1 : erange true ⟨0, 0, 10, 0⟩ = (0, 10) := by
    norm_num [erange, edgeProj]
  have her2 : erange true ⟨30, 0, 0, 0⟩ = (0, 30) := by
    norm_num [erange, edgeProj]
  have her3 : erange true ⟨40, 0, 50, 0⟩ = (40, 50) := by
    norm_num [erange, edgeProj]
  have her4 : erange true ⟨60, 0, 20, 0⟩ = (20, 60) := by
    norm_num [erange, edgeProj]
  have hov1 : rangesOverlap ((0 : ℚ), (30 : ℚ)) (0, 10) = true := by
    norm_num [rangesOverlap]
  have hov2 : rangesOverlap ((40 : ℚ), (50 : ℚ)) (0, 10) = false := by
    norm_num [rangesOverlap]
  have hov3 : rangesOverlap ((20 : ℚ), (60 : ℚ)) (0, 10) = false := by
    norm_num [rangesOverlap]
  have hov4 : rangesOverlap ((20 : ℚ), (60 : ℚ)) (40, 50) = true := by
    norm_num [rangesOverlap]
  have hov5 : rangesOverlap ((20 : ℚ), (60 : ℚ)) (0, 30) = true := by
    norm_num [rangesOverlap]
  have hsort : stableSort (edgeKeyLe true)
      [⟨0, 0, 10, 0⟩, ⟨30, 0, 0, 0⟩, ⟨40, 0, 50, 0⟩, ⟨60, 0, 20, 0⟩] =
      [⟨0, 0, 10, 0⟩, ⟨30, 0, 0, 0⟩, ⟨40, 0, 50, 0⟩, ⟨60, 0, 20, 0⟩] := by
    simp [stableSort, stableInsert, hk1, hk2, hk3]
  have hovDA : edgesOverlap true ⟨30, 0, 0, 0⟩ ⟨0, 0, 10, 0⟩ = true := by
    unfold edgesOverlap
    rw [her1, her2, hov1]
  have hovAD : edgesOverlap true ⟨0, 0, 10, 0⟩ ⟨30, 0, 0, 0⟩ = true := by
    rw [edgesOverlap_symm]
    exact hovDA
  have hovAB : edgesOverlap true ⟨0, 0, 10, 0⟩ ⟨40, 0, 50, 0⟩ = false := by
    rw [edgesOverlap_symm]
    unfold edgesOverlap
    rw [her1, her3, hov2]
  have hovAC : edgesOverlap true ⟨0, 0, 10, 0⟩ ⟨60, 0, 20, 0⟩ = false := by
    rw [edgesOverlap_symm]
    unfold edgesOverlap
    rw [her1, her4, hov3]
  have hovDB : edgesOverlap true ⟨30, 0, 0, 0⟩ ⟨40, 0, 50, 0⟩ = false := by
    unfold edgesOverlap
    rw [her2, her3]
    norm_num [rangesOverlap]
  have hovDC : edgesOverlap true ⟨30, 0, 0, 0⟩ ⟨60, 0, 20, 0⟩ = true := by
    rw [edgesOverlap_symm]
    unfold edgesOverlap
    rw [her2, her4, hov5]
  have hovBC : edgesOverlap true ⟨40, 0, 50, 0⟩ ⟨60, 0, 20, 0⟩ = true := by
    rw [edgesOverlap_symm]
    unfold edgesOverlap
    rw [her3, her4, hov4]
  refine ⟨?_, List.Perm.refl _, ?_, ?_⟩
  · unfold offsetLevelCount assign_dimension_offset_levels
    rw [hsort]
    simp [assignLoop, insertRange, her1, her2, her3, her4,
      hov1, hov2, hov3, hov4, hov5, distinctCount]
  · unfold ValidAssignment
    simp [List.pairwise_cons, hovAD, hovAB, hovAC, hovDB, hovDC, hovBC]
  · decide

/-- Witness for C1 at two disjoint normalized edges, with the identity
assignment as the competing valid assignment. -/
theorem C1_offset_levels_witness :
    ValidAssignment true
      (assign_dimension_offset_levels
        [⟨0, 0, 10, 0⟩, ⟨40, 0, 50, 0⟩] true) ∧
    offsetLevelCount [⟨0, 0, 10, 0⟩, ⟨40, 0, 50, 0⟩] true ≤
      distinctCount
        ([((⟨0, 0, 10, 0⟩ : Edge), (0 : ℕ)),
          (⟨40, 0, 50, 0⟩, 0)].map Prod.snd) := by
  have hovAB : edgesOverlap true ⟨0, 0, 10, 0⟩ ⟨40, 0, 50, 0⟩ = false := by
    norm_num [edgesOverlap, rangesOverlap, erange, edgeProj]
  have h := C1_offset_levels true [⟨0, 0, 10, 0⟩, ⟨40, 0, 50, 0⟩]
  refine ⟨h.2.1, h.2.2.2 ?_ _ (List.Perm.refl _) ?_⟩
  · intro e he
    fin_cases he <;> norm_num [edgeProj]
  · unfold ValidAssignment
    simp [List.pairwise_cons, hovAB]

end KonkanHouse
